import Mathlib

/-!
Shallow embedding of `src/smart_pointers.h`: a reference-counted shared-ownership
pointer library (`SharedPtr`, `WeakPtr`, the polymorphic control blocks
`RegularControlBlock` and `MakeSharedControlBlock`, `EnableSharedFromThis`, and
the factory `allocateShared` / `makeShared`).

The heap is modelled as an explicit world: a list of control blocks indexed by
allocation order.  Handles carry the payload pointer and the (optional) index of
their control block, exactly mirroring the `(T* ptr, BaseControlBlock* cb)` pair
of the source.  Virtual `destroy()` / `deallocate()` calls are recorded as
per-block call counters so that "exactly once" temporal properties become
statements about those counters.

The source's `uint` counters are modelled as `Nat`.  In every reachable state
the code only decrements counters that are strictly positive (a live handle
contributes one unit to its block's counter), so natural subtraction agrees
with the unsigned machine arithmetic of the source on all modelled traces.
-/

set_option maxHeartbeats 1000000

namespace SmartPtr

/-- Abstract payload addresses: `raw n` is the address of an independently
heap-allocated object (the raw-pointer adoption paths), `inlineAddr b` is the
address of the inline storage `char object[sizeof(T)]` of the co-allocated
control block with id `b`. -/
inductive Addr where
  | raw (n : Nat)
  | inlineAddr (b : Nat)
deriving DecidableEq

/-- Concrete control-block variants of the source.  `rawStorage` is storage
returned by `allocate` on which `construct` has not (yet) run (src 332-334);
`regular ptr` is `RegularControlBlock` (src 17-46) holding a pointer to a
separately allocated payload (cleared by `destroy()`, src 29); `makeShared obj`
is `MakeSharedControlBlock` (src 48-72) whose payload was constructed in place
from the constructor arguments `obj`. -/
inductive CBKind where
  | rawStorage
  | regular (ptr : Option Addr)
  | makeShared (obj : List Nat)
deriving DecidableEq

/-- One control block: the `BaseControlBlock` counters (src 8-15) plus the data
of the concrete variant.  `deleterTag 0` stands for `std::default_delete` and
`allocTag 0` for `std::allocator`; other tags stand for caller-supplied deleter
or allocator values.  `destroyCalls` and `deallocCalls` count the invocations
of the virtual `destroy()` / `deallocate()` capabilities. -/
structure CB where
  shared_count : Nat
  weak_count : Nat
  kind : CBKind
  deleterTag : Nat
  allocTag : Nat
  destroyCalls : Nat
  deallocCalls : Nat
deriving DecidableEq

instance : Inhabited CB := ⟨⟨0, 0, .rawStorage, 0, 0, 0, 0⟩⟩

/-- Virtual `destroy()`: `RegularControlBlock::destroy` (src 27-30) runs the
deleter on the payload pointer and clears it; `MakeSharedControlBlock::destroy`
(src 63-66) runs the in-place destructor and leaves the block's layout alone.
The invocation is recorded in `destroyCalls`. -/
def CB.destroy (c : CB) : CB :=
  { c with
    destroyCalls := c.destroyCalls + 1
    kind :=
      match c.kind with
      | .regular _ => .regular none
      | k => k }

/-- Virtual `deallocate()` (src 31-34 and 68-71): frees the block's own storage
via the stored (rebound) allocator.  The invocation is recorded in
`deallocCalls`. -/
def CB.deallocate (c : CB) : CB :=
  { c with deallocCalls := c.deallocCalls + 1 }

/-- Counter bump `++shared_count` (src 90, 99, 141). -/
def incShared (c : CB) : CB := { c with shared_count := c.shared_count + 1 }

/-- Counter bump `--shared_count` (src 127). -/
def decShared (c : CB) : CB := { c with shared_count := c.shared_count - 1 }

/-- Counter bump `++weak_count` (src 240, 246, 285). -/
def incWeak (c : CB) : CB := { c with weak_count := c.weak_count + 1 }

/-- Counter bump `--weak_count` (src 271). -/
def decWeak (c : CB) : CB := { c with weak_count := c.weak_count - 1 }

/-- The handle pair of `SharedPtr` (src 85-86): payload pointer and control
block pointer, both possibly null. -/
structure SharedPtr where
  ptr : Option Addr := none
  cb : Option Nat := none
deriving DecidableEq

/-- The handle pair of `WeakPtr` (src 231-232). -/
structure WeakPtr where
  ptr : Option Addr := none
  cb : Option Nat := none
deriving DecidableEq

/-- A strong handle slot of the trace semantics: the handle value plus whether
its destructor has already run. -/
structure StrongSlot where
  h : SharedPtr
  released : Bool
deriving DecidableEq

instance : Inhabited StrongSlot := ⟨⟨⟨none, none⟩, false⟩⟩

/-- A weak handle slot of the trace semantics. -/
structure WeakSlot where
  h : WeakPtr
  released : Bool
deriving DecidableEq

instance : Inhabited WeakSlot := ⟨⟨⟨none, none⟩, false⟩⟩

/-- The world: all control blocks ever allocated (indexed by id, in allocation
order) and all strong/weak handles ever created. -/
structure World where
  blocks : List CB := []
  strongs : List StrongSlot := []
  weaks : List WeakSlot := []
deriving DecidableEq

/-- Update the element at one position of a list, leaving the rest alone. -/
def updateAt {α : Type} (f : α → α) : Nat → List α → List α
  | _, [] => []
  | 0, a :: l => f a :: l
  | n + 1, a :: l => a :: updateAt f n l

/-- Read the control block with id `b` (meaningful only for `b` in range). -/
def getBlock (st : World) (b : Nat) : CB := st.blocks.getD b default

/-- Apply `f` to the control block with id `b`. -/
def updBlock (st : World) (b : Nat) (f : CB → CB) : World :=
  { st with blocks := updateAt f b st.blocks }

/-- Copy constructor `SharedPtr::SharedPtr(const SharedPtr&)` (src 97-101):
copies the pair and increments `shared_count` when a block is present. -/
def sharedCopy (s : SharedPtr) (st : World) : SharedPtr × World :=
  match s.cb with
  | none => (⟨s.ptr, none⟩, st)
  | some b =>
    (⟨s.ptr, some b⟩, updBlock st b incShared)

/-- Destructor `SharedPtr::~SharedPtr` (src 123-136): decrement
`shared_count`; on reaching zero call `destroy()`, and additionally
`deallocate()` iff `weak_count` is zero. -/
def sharedDtor (s : SharedPtr) (st : World) : World :=
  match s.cb with
  | none => st
  | some b =>
    let st1 := updBlock st b decShared
    if (getBlock st1 b).shared_count = 0 then
      if (getBlock st1 b).weak_count = 0 then
        updBlock (updBlock st1 b CB.destroy) b CB.deallocate
      else
        updBlock st1 b CB.destroy
    else st1

/-- Query `SharedPtr::use_count` (src 189-191). -/
def useCount (s : SharedPtr) (st : World) : Nat :=
  match s.cb with
  | none => 0
  | some b => (getBlock st b).shared_count

/-- Accessor `SharedPtr::get` (src 214-216). -/
def SharedPtr.get (s : SharedPtr) : Option Addr := s.ptr

/-- Default constructor `SharedPtr::SharedPtr()` (src 95): null payload
pointer, null control-block pointer. -/
def sharedPtrDefault : SharedPtr := {}

/-- Adopting constructor `SharedPtr::SharedPtr(U*)` (src 145-155) for a payload
type that does not derive `EnableSharedFromThis`: allocates a fresh
`RegularControlBlock<T, std::default_delete<U>, std::allocator<U>>` initialized
with `(1, 0, ptr, std::default_delete<U>(), std::allocator<U>())` (src 148-150).
Tag 0 is the default deleter resp. the default allocator. -/
def adopt (p : Option Addr) (st : World) : SharedPtr × World :=
  (⟨p, some st.blocks.length⟩,
   { st with blocks := st.blocks ++ [⟨1, 0, .regular p, 0, 0, 0, 0⟩] })

/-- Converting constructor `WeakPtr::WeakPtr(SharedPtr<U> shp)` (src 237-242).
The parameter is taken by value, so the `SharedPtr` copy constructor runs on
entry and the `SharedPtr` destructor runs on the parameter when the constructor
returns; the constructor body increments `weak_count`. -/
def weakFromShared (s : SharedPtr) (st : World) : WeakPtr × World :=
  let tmp := sharedCopy s st
  let mk : WeakPtr × World :=
    match tmp.1.cb with
    | none => (⟨tmp.1.ptr, none⟩, tmp.2)
    | some b =>
      (⟨tmp.1.ptr, some b⟩, updBlock tmp.2 b incWeak)
  (mk.1, sharedDtor tmp.1 mk.2)

/-- Copy constructor `WeakPtr::WeakPtr(const WeakPtr&)` (src 244-248). -/
def weakCopy (w : WeakPtr) (st : World) : WeakPtr × World :=
  match w.cb with
  | none => (⟨w.ptr, none⟩, st)
  | some b =>
    (⟨w.ptr, some b⟩, updBlock st b incWeak)

/-- Destructor `WeakPtr::~WeakPtr` (src 267-275): decrement `weak_count`; call
`deallocate()` iff both counts are now zero. -/
def weakDtor (w : WeakPtr) (st : World) : World :=
  match w.cb with
  | none => st
  | some b =>
    let st1 := updBlock st b decWeak
    if (getBlock st1 b).weak_count = 0 ∧ (getBlock st1 b).shared_count = 0 then
      updBlock st1 b CB.deallocate
    else st1

/-- Query `WeakPtr::expired` (src 289-291): true iff there is no block or the
block's `shared_count` is zero. -/
def expired (w : WeakPtr) (st : World) : Bool :=
  match w.cb with
  | none => true
  | some b => decide ((getBlock st b).shared_count = 0)

/-- Private promotion constructor `SharedPtr::SharedPtr(const WeakPtr&)`
(src 88-92): copies the pair and increments `shared_count` when a block is
present. -/
def sharedFromWeak (w : WeakPtr) (st : World) : SharedPtr × World :=
  match w.cb with
  | none => (⟨w.ptr, none⟩, st)
  | some b =>
    (⟨w.ptr, some b⟩, updBlock st b incShared)

/-- Promotion `WeakPtr::lock` (src 293-295): an empty strong handle when
expired, otherwise the private promotion constructor. -/
def lock (w : WeakPtr) (st : World) : SharedPtr × World :=
  if expired w st then (⟨none, none⟩, st) else sharedFromWeak w st

/-- Query `WeakPtr::use_count` (src 297-299): reports the strong count. -/
def weakUseCount (w : WeakPtr) (st : World) : Nat :=
  match w.cb with
  | none => 0
  | some b => (getBlock st b).shared_count

/-- Adopting constructor `SharedPtr::SharedPtr(U*)` (src 145-155) for a payload
type `U` deriving `EnableSharedFromThis<U>`, as prescribed by the source text
of the branch at src 152-154: `other_ptr->enable_wp = *this` converts `*this`
through the by-value `WeakPtr(SharedPtr<U>)` constructor and move-assigns the
result into the object's embedded (previously empty) `enable_wp`; the
move-assignment's construct-and-swap has no further count effect.  As written
that branch is ill-formed C++: `enable_wp` is private (src 310) and
`EnableSharedFromThis` only befriends the nonexistent class `SharePtr`
(misspelled friend declaration, src 318), so no type deriving the mixin can be
adopted at all.  This definition models the semantics the source text
evidently intends (the friend declaration read as `SharedPtr`), in order to
state what self-observation would do were the spelling slip repaired.
Returns the strong handle, the populated embedded weak handle and the
world. -/
def adoptESFT (p : Addr) (st : World) : (SharedPtr × WeakPtr) × World :=
  let a := adopt (some p) st
  let w := weakFromShared a.1 a.2
  ((a.1, w.1), w.2)

/-- Self-observation `EnableSharedFromThis::shared_from_this` as written at
src 313-315: the promotion constructor `SharedPtr(const WeakPtr&)` applied to
the embedded `enable_wp`.  As written this is ill-formed C++: that constructor
is private (src 88) and `SharedPtr` does not befriend `EnableSharedFromThis`
(the mixin's only friend declaration names the nonexistent `SharePtr`,
src 318), so every instantiation of `shared_from_this` fails to compile.
This definition models the evidently intended semantics of the source
text. -/
def sharedFromThis (ewp : WeakPtr) (st : World) : SharedPtr × World :=
  sharedFromWeak ewp st

/-- Factory `allocateShared` (src 321-340).  `allocate` and `construct` are
distinct steps (src 332-334) with no try/catch between them; `ctorFails = true`
models a payload constructor that throws: the exception propagates out of
`construct` and the already-allocated storage is never deallocated.  On success
the `MakeSharedControlBlock` constructor (src 58-61) placement-constructs the
payload from `args` into the inline storage (base counters default to zero,
src 9-10), then `shared_count` is set to 1, the returned handle's payload
pointer is the address of the in-block storage (src 337), and the rebound
allocator is moved into the block (src 338). -/
def allocateShared (allocTag : Nat) (ctorFails : Bool) (args : List Nat) (st : World) :
    Except Unit SharedPtr × World :=
  let b := st.blocks.length
  let st1 : World := { st with blocks := st.blocks ++ [⟨0, 0, .rawStorage, 0, 0, 0, 0⟩] }
  if ctorFails then
    (.error (), st1)
  else
    let st2 := updBlock st1 b
      (fun c => { c with shared_count := 0, weak_count := 0, kind := .makeShared args })
    let st3 := updBlock st2 b (fun c => { c with shared_count := 1 })
    let st4 := updBlock st3 b (fun c => { c with allocTag := allocTag })
    (.ok ⟨some (.inlineAddr b), some b⟩, st4)

/-- Factory `makeShared` (src 342-345): `allocateShared` with
`std::allocator<T>` (tag 0). -/
def makeShared (ctorFails : Bool) (args : List Nat) (st : World) :
    Except Unit SharedPtr × World :=
  allocateShared 0 ctorFails args st

/-- One client-visible lifecycle event of the trace semantics.  Index arguments
pick an existing handle; events naming a released or nonexistent handle are
no-ops (C++ forbids using a handle after its destructor ran). -/
inductive Op where
  | adoptNew (p : Option Addr)
  | mkShared (args : List Nat)
  | scopy (i : Nat)
  | smove (i : Nat)
  | srelease (i : Nat)
  | sreset (i : Nat)
  | wfromS (i : Nat)
  | wcopy (i : Nat)
  | wmove (i : Nat)
  | wrelease (i : Nat)
  | wlock (i : Nat)
deriving DecidableEq

/-- Small-step semantics: the effect of one lifecycle event on the world.
`smove` models the move constructor (src 103-106, source handle nulled without
touching counts), `srelease` the destructor, `sreset` `reset()` (src 193-195:
swap with a default-constructed temporary whose destructor then releases the
old state), and `wlock` pushes the result of `lock()` as a new strong handle. -/
def step (st : World) : Op → World
  | .adoptNew p =>
    let a := adopt p st
    { a.2 with strongs := a.2.strongs ++ [⟨a.1, false⟩] }
  | .mkShared args =>
    let r := allocateShared 0 false args st
    match r.1 with
    | .ok s => { r.2 with strongs := r.2.strongs ++ [⟨s, false⟩] }
    | .error _ => r.2
  | .scopy i =>
    match st.strongs[i]? with
    | none => st
    | some sl =>
      if sl.released then st
      else
        let a := sharedCopy sl.h st
        { a.2 with strongs := a.2.strongs ++ [⟨a.1, false⟩] }
  | .smove i =>
    match st.strongs[i]? with
    | none => st
    | some sl =>
      if sl.released then st
      else
        { st with
          strongs := updateAt (fun _ => ⟨⟨none, none⟩, false⟩) i st.strongs ++ [⟨sl.h, false⟩] }
  | .srelease i =>
    match st.strongs[i]? with
    | none => st
    | some sl =>
      if sl.released then st
      else
        let st1 := sharedDtor sl.h st
        { st1 with strongs := updateAt (fun _ => ⟨sl.h, true⟩) i st1.strongs }
  | .sreset i =>
    match st.strongs[i]? with
    | none => st
    | some sl =>
      if sl.released then st
      else
        let st1 := sharedDtor sl.h st
        { st1 with strongs := updateAt (fun _ => ⟨⟨none, none⟩, false⟩) i st1.strongs }
  | .wfromS i =>
    match st.strongs[i]? with
    | none => st
    | some sl =>
      if sl.released then st
      else
        let a := weakFromShared sl.h st
        { a.2 with weaks := a.2.weaks ++ [⟨a.1, false⟩] }
  | .wcopy i =>
    match st.weaks[i]? with
    | none => st
    | some wl =>
      if wl.released then st
      else
        let a := weakCopy wl.h st
        { a.2 with weaks := a.2.weaks ++ [⟨a.1, false⟩] }
  | .wmove i =>
    match st.weaks[i]? with
    | none => st
    | some wl =>
      if wl.released then st
      else
        { st with
          weaks := updateAt (fun _ => ⟨⟨none, none⟩, false⟩) i st.weaks ++ [⟨wl.h, false⟩] }
  | .wrelease i =>
    match st.weaks[i]? with
    | none => st
    | some wl =>
      if wl.released then st
      else
        let st1 := weakDtor wl.h st
        { st1 with weaks := updateAt (fun _ => ⟨wl.h, true⟩) i st1.weaks }
  | .wlock i =>
    match st.weaks[i]? with
    | none => st
    | some wl =>
      if wl.released then st
      else
        let a := lock wl.h st
        { a.2 with strongs := a.2.strongs ++ [⟨a.1, false⟩] }

/-- Run a finite sequence of lifecycle events from the empty world. -/
def run (ops : List Op) : World := ops.foldl step {}

/-- Predicate: a strong slot is still alive and references block `b`. -/
def strongPred (b : Nat) (sl : StrongSlot) : Bool :=
  !sl.released && decide (sl.h.cb = some b)

/-- Predicate: a weak slot is still alive and references block `b`. -/
def weakPred (b : Nat) (wl : WeakSlot) : Bool :=
  !wl.released && decide (wl.h.cb = some b)

/-- Number of still-alive strong handles referencing block `b`. -/
def aliveStrongOn (st : World) (b : Nat) : Nat :=
  st.strongs.countP (strongPred b)

/-- Number of still-alive weak handles referencing block `b`. -/
def aliveWeakOn (st : World) (b : Nat) : Nat :=
  st.weaks.countP (weakPred b)

/-- Effect of `SharedPtr::~SharedPtr` (src 123-136) on the referenced control
block, as a pure block transformer. -/
def releaseStrongCB (c : CB) : CB :=
  let c1 := decShared c
  if c1.shared_count = 0 then
    if c1.weak_count = 0 then c1.destroy.deallocate else c1.destroy
  else c1

/-- Effect of `WeakPtr::~WeakPtr` (src 267-275) on the referenced control
block, as a pure block transformer. -/
def releaseWeakCB (c : CB) : CB :=
  let c1 := decWeak c
  if c1.weak_count = 0 ∧ c1.shared_count = 0 then c1.deallocate else c1

/-- Well-formedness of a world of the trace semantics: every handle references
an allocated block; each block's `shared_count` / `weak_count` equal the number
of still-alive strong / weak handles referencing it; `destroy()` has run
exactly once on blocks whose strong count is zero and never otherwise; and
`deallocate()` has run exactly once on blocks with both counts zero and never
otherwise. -/
structure WF (st : World) : Prop where
  sBound : ∀ sl ∈ st.strongs, ∀ b, sl.h.cb = some b → b < st.blocks.length
  wBound : ∀ wl ∈ st.weaks, ∀ b, wl.h.cb = some b → b < st.blocks.length
  okShared : ∀ b, b < st.blocks.length → (getBlock st b).shared_count = aliveStrongOn st b
  okWeak : ∀ b, b < st.blocks.length → (getBlock st b).weak_count = aliveWeakOn st b
  okDestroy : ∀ b, b < st.blocks.length →
    (getBlock st b).destroyCalls = if (getBlock st b).shared_count = 0 then 1 else 0
  okDealloc : ∀ b, b < st.blocks.length →
    (getBlock st b).deallocCalls =
      if (getBlock st b).shared_count = 0 ∧ (getBlock st b).weak_count = 0 then 1 else 0

section ListLemmas

variable {α : Type}

theorem length_updateAt (f : α → α) (n : Nat) (l : List α) :
    (updateAt f n l).length = l.length := by
  induction l generalizing n with
  | nil => cases n <;> rfl
  | cons a l ih =>
    cases n with
    | zero => rfl
    | succ n => simp [updateAt, ih]

theorem getD_updateAt_self (f : α → α) (n : Nat) (l : List α) (d : α) (h : n < l.length) :
    (updateAt f n l).getD n d = f (l.getD n d) := by
  induction l generalizing n with
  | nil => simp at h
  | cons a l ih =>
    cases n with
    | zero => rfl
    | succ n =>
      simp only [List.length_cons, Nat.succ_lt_succ_iff] at h
      simpa [updateAt, List.getD] using ih n h

theorem getD_updateAt_ne (f : α → α) (n m : Nat) (l : List α) (d : α) (h : m ≠ n) :
    (updateAt f n l).getD m d = l.getD m d := by
  induction l generalizing n m with
  | nil => cases n <;> rfl
  | cons a l ih =>
    cases n with
    | zero =>
      cases m with
      | zero => exact absurd rfl h
      | succ m => rfl
    | succ n =>
      cases m with
      | zero => rfl
      | succ m =>
        simpa [updateAt, List.getD] using ih n m (fun he => h (by omega))

theorem updateAt_updateAt (f g : α → α) (n : Nat) (l : List α) :
    updateAt g n (updateAt f n l) = updateAt (fun a => g (f a)) n l := by
  induction l generalizing n with
  | nil => cases n <;> rfl
  | cons a l ih =>
    cases n with
    | zero => rfl
    | succ n => simp [updateAt, ih]

theorem updateAt_congr (f g : α → α) (n : Nat) (l : List α) (d : α)
    (h : f (l.getD n d) = g (l.getD n d)) :
    updateAt f n l = updateAt g n l := by
  induction l generalizing n with
  | nil => cases n <;> rfl
  | cons a l ih =>
    cases n with
    | zero => simpa [updateAt, List.getD] using congrArg (· :: l) h
    | succ n =>
      simp only [List.getD_cons_succ] at h
      simp [updateAt, ih n h]

theorem updateAt_of_length_le (f : α → α) (n : Nat) (l : List α) (h : l.length ≤ n) :
    updateAt f n l = l := by
  induction l generalizing n with
  | nil => cases n <;> rfl
  | cons a l ih =>
    cases n with
    | zero => simp at h
    | succ n =>
      simp only [List.length_cons, Nat.succ_le_succ_iff] at h
      simp [updateAt, ih n h]

theorem getD_append_left (l l' : List α) (m : Nat) (d : α) (h : m < l.length) :
    (l ++ l').getD m d = l.getD m d := by
  induction l generalizing m with
  | nil => simp at h
  | cons a l ih =>
    cases m with
    | zero => rfl
    | succ m =>
      simp only [List.length_cons, Nat.succ_lt_succ_iff] at h
      simpa [List.getD] using ih m h

theorem getD_append_length (l : List α) (x : α) (d : α) :
    (l ++ [x]).getD l.length d = x := by
  induction l with
  | nil => rfl
  | cons a l ih => simp [List.getD, ih]

theorem getD_of_length_le (l : List α) (n : Nat) (d : α) (h : l.length ≤ n) :
    l.getD n d = d := by
  induction l generalizing n with
  | nil => simp [List.getD]
  | cons a l ih =>
    cases n with
    | zero => simp at h
    | succ n =>
      simp only [List.length_cons, Nat.succ_le_succ_iff] at h
      simpa [List.getD] using ih n h

theorem updateAt_append_length (f : α → α) (l : List α) (x : α) :
    updateAt f l.length (l ++ [x]) = l ++ [f x] := by
  induction l with
  | nil => rfl
  | cons a l ih => simp [updateAt, ih]

theorem countP_updateAt (p : α → Bool) (f : α → α) (n : Nat) (l : List α) (d : α)
    (h : n < l.length) :
    (updateAt f n l).countP p + (if p (l.getD n d) then 1 else 0)
      = l.countP p + (if p (f (l.getD n d)) then 1 else 0) := by
  induction l generalizing n with
  | nil => simp at h
  | cons a l ih =>
    cases n with
    | zero =>
      simp only [updateAt, List.getD_cons_zero, List.countP_cons]
      omega
    | succ n =>
      simp only [List.length_cons, Nat.succ_lt_succ_iff] at h
      simp only [updateAt, List.getD_cons_succ, List.countP_cons]
      have := ih n h
      omega

theorem countP_pos_of_getElem (p : α → Bool) (l : List α) (i : Nat) (x : α)
    (hx : l[i]? = some x) (hp : p x = true) : 0 < l.countP p := by
  induction l generalizing i with
  | nil => simp at hx
  | cons a l ih =>
    cases i with
    | zero =>
      simp only [List.getElem?_cons_zero, Option.some.injEq] at hx
      subst hx
      simp [List.countP_cons, hp]
    | succ i =>
      simp only [List.getElem?_cons_succ] at hx
      have := ih i hx
      simp only [List.countP_cons]
      omega

theorem countP_eq_zero_of_forall (p : α → Bool) (l : List α)
    (h : ∀ x ∈ l, p x = false) : l.countP p = 0 := by
  induction l with
  | nil => rfl
  | cons a l ih =>
    have ha := h a (by simp)
    have hl := ih fun x hx => h x (by simp [hx])
    simp [List.countP_cons, ha, hl]

theorem countP_single (p : α → Bool) (x : α) :
    List.countP p [x] = if p x then 1 else 0 := by
  simp [List.countP_cons]

theorem mem_updateAt_const (y : α) (n : Nat) (l : List α) (x : α)
    (h : x ∈ updateAt (fun _ => y) n l) : x ∈ l ∨ x = y := by
  induction l generalizing n with
  | nil =>
    cases n <;> simp [updateAt] at h
  | cons a l ih =>
    cases n with
    | zero =>
      simp only [updateAt, List.mem_cons] at h
      rcases h with h | h
      · right; exact h
      · left; exact List.mem_cons_of_mem _ h
    | succ n =>
      simp only [updateAt, List.mem_cons] at h
      rcases h with h | h
      · left; simp [h]
      · rcases ih n h with h' | h'
        · left; exact List.mem_cons_of_mem _ h'
        · right; exact h'

end ListLemmas

section BlockLemmas

@[simp] theorem incShared_shared_count (c : CB) :
    (incShared c).shared_count = c.shared_count + 1 := rfl

@[simp] theorem incShared_weak_count (c : CB) : (incShared c).weak_count = c.weak_count := rfl

@[simp] theorem incShared_destroyCalls (c : CB) :
    (incShared c).destroyCalls = c.destroyCalls := rfl

@[simp] theorem incShared_deallocCalls (c : CB) :
    (incShared c).deallocCalls = c.deallocCalls := rfl

@[simp] theorem decShared_shared_count (c : CB) :
    (decShared c).shared_count = c.shared_count - 1 := rfl

@[simp] theorem decShared_weak_count (c : CB) : (decShared c).weak_count = c.weak_count := rfl

@[simp] theorem decShared_destroyCalls (c : CB) :
    (decShared c).destroyCalls = c.destroyCalls := rfl

@[simp] theorem decShared_deallocCalls (c : CB) :
    (decShared c).deallocCalls = c.deallocCalls := rfl

@[simp] theorem incWeak_shared_count (c : CB) : (incWeak c).shared_count = c.shared_count := rfl

@[simp] theorem incWeak_weak_count (c : CB) : (incWeak c).weak_count = c.weak_count + 1 := rfl

@[simp] theorem incWeak_destroyCalls (c : CB) :
    (incWeak c).destroyCalls = c.destroyCalls := rfl

@[simp] theorem incWeak_deallocCalls (c : CB) :
    (incWeak c).deallocCalls = c.deallocCalls := rfl

@[simp] theorem decWeak_shared_count (c : CB) : (decWeak c).shared_count = c.shared_count := rfl

@[simp] theorem decWeak_weak_count (c : CB) : (decWeak c).weak_count = c.weak_count - 1 := rfl

@[simp] theorem decWeak_destroyCalls (c : CB) :
    (decWeak c).destroyCalls = c.destroyCalls := rfl

@[simp] theorem decWeak_deallocCalls (c : CB) :
    (decWeak c).deallocCalls = c.deallocCalls := rfl

theorem decShared_incWeak_incShared (c : CB) :
    decShared (incWeak (incShared c)) = incWeak c := by
  simp [incShared, incWeak, decShared]

@[simp] theorem destroy_shared_count (c : CB) : c.destroy.shared_count = c.shared_count := rfl

@[simp] theorem destroy_weak_count (c : CB) : c.destroy.weak_count = c.weak_count := rfl

@[simp] theorem destroy_destroyCalls (c : CB) :
    c.destroy.destroyCalls = c.destroyCalls + 1 := rfl

@[simp] theorem destroy_deallocCalls (c : CB) :
    c.destroy.deallocCalls = c.deallocCalls := rfl

@[simp] theorem deallocate_shared_count (c : CB) :
    c.deallocate.shared_count = c.shared_count := rfl

@[simp] theorem deallocate_weak_count (c : CB) :
    c.deallocate.weak_count = c.weak_count := rfl

@[simp] theorem deallocate_destroyCalls (c : CB) :
    c.deallocate.destroyCalls = c.destroyCalls := rfl

@[simp] theorem deallocate_deallocCalls (c : CB) :
    c.deallocate.deallocCalls = c.deallocCalls + 1 := rfl

theorem releaseStrongCB_shared (c : CB) :
    (releaseStrongCB c).shared_count = c.shared_count - 1 := by
  simp only [releaseStrongCB, decShared_shared_count, decShared_weak_count]
  split_ifs <;> rfl

theorem releaseStrongCB_weak (c : CB) :
    (releaseStrongCB c).weak_count = c.weak_count := by
  simp only [releaseStrongCB, decShared_shared_count, decShared_weak_count]
  split_ifs <;> rfl

theorem releaseStrongCB_destroyCalls (c : CB) :
    (releaseStrongCB c).destroyCalls
      = c.destroyCalls + (if c.shared_count - 1 = 0 then 1 else 0) := by
  simp only [releaseStrongCB, decShared_shared_count, decShared_weak_count]
  split_ifs with h1 h2 <;> simp [h1, decShared]

theorem releaseStrongCB_deallocCalls (c : CB) :
    (releaseStrongCB c).deallocCalls
      = c.deallocCalls + (if c.shared_count - 1 = 0 ∧ c.weak_count = 0 then 1 else 0) := by
  simp only [releaseStrongCB, decShared_shared_count, decShared_weak_count]
  split_ifs with h1 h2 <;> simp_all [decShared]

theorem releaseWeakCB_shared (c : CB) :
    (releaseWeakCB c).shared_count = c.shared_count := by
  simp only [releaseWeakCB, decWeak_shared_count, decWeak_weak_count]
  split_ifs <;> rfl

theorem releaseWeakCB_weak (c : CB) :
    (releaseWeakCB c).weak_count = c.weak_count - 1 := by
  simp only [releaseWeakCB, decWeak_shared_count, decWeak_weak_count]
  split_ifs <;> rfl

theorem releaseWeakCB_destroyCalls (c : CB) :
    (releaseWeakCB c).destroyCalls = c.destroyCalls := by
  simp only [releaseWeakCB, decWeak_shared_count, decWeak_weak_count]
  split_ifs <;> rfl

theorem releaseWeakCB_deallocCalls (c : CB) :
    (releaseWeakCB c).deallocCalls
      = c.deallocCalls + (if c.weak_count - 1 = 0 ∧ c.shared_count = 0 then 1 else 0) := by
  simp only [releaseWeakCB, decWeak_shared_count, decWeak_weak_count]
  split_ifs with h <;> simp [h, decWeak]

end BlockLemmas

section SpecLemmas

theorem getBlock_updBlock_self (st : World) (b : Nat) (f : CB → CB)
    (hb : b < st.blocks.length) :
    getBlock (updBlock st b f) b = f (getBlock st b) := by
  simpa [getBlock, updBlock] using getD_updateAt_self f b st.blocks default hb

theorem getBlock_updBlock_ne (st : World) (b b' : Nat) (f : CB → CB) (h : b' ≠ b) :
    getBlock (updBlock st b f) b' = getBlock st b' := by
  simpa [getBlock, updBlock] using getD_updateAt_ne f b b' st.blocks default h

theorem updBlock_updBlock (st : World) (b : Nat) (f g : CB → CB) :
    updBlock (updBlock st b f) b g = updBlock st b (fun c => g (f c)) := by
  simp [updBlock, updateAt_updateAt]

theorem updBlock_congr (st : World) (b : Nat) (f g : CB → CB)
    (h : f (getBlock st b) = g (getBlock st b)) :
    updBlock st b f = updBlock st b g := by
  have he := updateAt_congr f g b st.blocks default h
  simp only [updBlock, he]

/-- The strong-handle destructor is exactly the pure transformer
`releaseStrongCB` applied to the referenced block. -/
theorem sharedDtor_spec (s : SharedPtr) (st : World) (b : Nat) (hcb : s.cb = some b)
    (hb : b < st.blocks.length) :
    sharedDtor s st = updBlock st b releaseStrongCB := by
  have hget : getBlock (updBlock st b decShared) b = decShared (getBlock st b) :=
    getBlock_updBlock_self st b decShared hb
  simp only [sharedDtor, hcb, hget, decShared_shared_count, decShared_weak_count]
  split_ifs with h1 h2
  · rw [updBlock_updBlock, updBlock_updBlock]
    refine updBlock_congr st b _ _ ?_
    simp [releaseStrongCB, h1, h2]
  · rw [updBlock_updBlock]
    refine updBlock_congr st b _ _ ?_
    simp [releaseStrongCB, h1, h2]
  · refine updBlock_congr st b _ _ ?_
    simp [releaseStrongCB, h1]

/-- The weak-handle destructor is exactly the pure transformer
`releaseWeakCB` applied to the referenced block. -/
theorem weakDtor_spec (w : WeakPtr) (st : World) (b : Nat) (hcb : w.cb = some b)
    (hb : b < st.blocks.length) :
    weakDtor w st = updBlock st b releaseWeakCB := by
  have hget : getBlock (updBlock st b decWeak) b = decWeak (getBlock st b) :=
    getBlock_updBlock_self st b decWeak hb
  simp only [weakDtor, hcb, hget, decWeak_shared_count, decWeak_weak_count]
  split_ifs with h1
  · rw [updBlock_updBlock]
    refine updBlock_congr st b _ _ ?_
    simp [releaseWeakCB, h1]
  · refine updBlock_congr st b _ _ ?_
    simp [releaseWeakCB, h1]

/-- Net effect of the by-value `WeakPtr(SharedPtr)` converting constructor on a
block with a strictly positive strong count (true whenever the argument is a
live strong handle): the intermediate strong increment and decrement cancel and
`weak_count` goes up by one. -/
theorem weakFromShared_spec (s : SharedPtr) (st : World) (b : Nat) (hcb : s.cb = some b)
    (hb : b < st.blocks.length) (hpos : 0 < (getBlock st b).shared_count) :
    weakFromShared s st = (⟨s.ptr, some b⟩, updBlock st b incWeak) := by
  have hlen1 : b < (updBlock st b incShared).blocks.length := by
    simpa [updBlock, length_updateAt] using hb
  have hlen2 : b < (updBlock (updBlock st b incShared) b incWeak).blocks.length := by
    simpa [updBlock, length_updateAt] using hb
  have hg1 : getBlock (updBlock st b incShared) b = incShared (getBlock st b) :=
    getBlock_updBlock_self st b incShared hb
  have hg2 : getBlock (updBlock (updBlock st b incShared) b incWeak) b
      = incWeak (getBlock (updBlock st b incShared) b) :=
    getBlock_updBlock_self _ b incWeak hlen1
  have hg3 : getBlock (updBlock (updBlock (updBlock st b incShared) b incWeak) b decShared) b
      = decShared (getBlock (updBlock (updBlock st b incShared) b incWeak) b) :=
    getBlock_updBlock_self _ b decShared hlen2
  simp only [weakFromShared, sharedCopy, hcb, sharedDtor, hg3, hg2, hg1,
    decShared_shared_count, incWeak_shared_count, incShared_shared_count,
    Nat.add_sub_cancel]
  rw [if_neg (by omega)]
  rw [updBlock_updBlock, updBlock_updBlock]
  refine congrArg (fun w => ((⟨s.ptr, some b⟩ : WeakPtr), w)) ?_
  refine updBlock_congr st b _ _ ?_
  exact decShared_incWeak_incShared (getBlock st b)

/-- Successful factory call, collapsed: one fresh co-allocated block holding
the payload constructed from `args`, strong count one, the given allocator
stored, and a handle pointing at the in-block storage. -/
theorem allocateShared_ok (a : Nat) (args : List Nat) (st : World) :
    allocateShared a false args st
      = (.ok ⟨some (.inlineAddr st.blocks.length), some st.blocks.length⟩,
         { st with blocks := st.blocks ++ [⟨1, 0, .makeShared args, 0, a, 0, 0⟩] }) := by
  simp only [allocateShared, updBlock]
  simp [updateAt_append_length]

end SpecLemmas

section WFLemmas

@[simp] theorem strongPred_mk (b : Nat) (s : SharedPtr) (r : Bool) :
    strongPred b ⟨s, r⟩ = (!r && decide (s.cb = some b)) := rfl

@[simp] theorem weakPred_mk (b : Nat) (w : WeakPtr) (r : Bool) :
    weakPred b ⟨w, r⟩ = (!r && decide (w.cb = some b)) := rfl

/-- Replacing the strong slots by a list with identical per-block alive counts
and in-range block references preserves well-formedness. -/
theorem wf_strongs_congr (st : World) (h : WF st) (ss : List StrongSlot)
    (hbound : ∀ sl ∈ ss, ∀ b, sl.h.cb = some b → b < st.blocks.length)
    (hcount : ∀ b, ss.countP (strongPred b) = st.strongs.countP (strongPred b)) :
    WF { st with strongs := ss } := by
  refine ⟨?_, ?_, ?_, ?_, ?_, ?_⟩
  · intro sl hsl b hcb
    exact hbound sl hsl b hcb
  · intro wl hwl b hcb
    exact h.wBound wl hwl b hcb
  · intro b hb
    have hc : aliveStrongOn { st with strongs := ss } b = aliveStrongOn st b := hcount b
    rw [hc]
    exact h.okShared b hb
  · intro b hb
    exact h.okWeak b hb
  · intro b hb
    exact h.okDestroy b hb
  · intro b hb
    exact h.okDealloc b hb

/-- Replacing the weak slots by a list with identical per-block alive counts
and in-range block references preserves well-formedness. -/
theorem wf_weaks_congr (st : World) (h : WF st) (ws : List WeakSlot)
    (hbound : ∀ wl ∈ ws, ∀ b, wl.h.cb = some b → b < st.blocks.length)
    (hcount : ∀ b, ws.countP (weakPred b) = st.weaks.countP (weakPred b)) :
    WF { st with weaks := ws } := by
  refine ⟨?_, ?_, ?_, ?_, ?_, ?_⟩
  · intro sl hsl b hcb
    exact h.sBound sl hsl b hcb
  · intro wl hwl b hcb
    exact hbound wl hwl b hcb
  · intro b hb
    exact h.okShared b hb
  · intro b hb
    have hc : aliveWeakOn { st with weaks := ws } b = aliveWeakOn st b := hcount b
    rw [hc]
    exact h.okWeak b hb
  · intro b hb
    exact h.okDestroy b hb
  · intro b hb
    exact h.okDealloc b hb

/-- Incrementing the strong count of a block with a strictly positive strong
count while pushing a fresh alive strong handle to it (the effect of
`SharedPtr` copy or of `lock()` on a live block) preserves well-formedness. -/
theorem wf_incStrongPush (st : World) (h : WF st) (b : Nat) (p : Option Addr)
    (hb : b < st.blocks.length) (hpos : 0 < (getBlock st b).shared_count) :
    WF { st with blocks := updateAt incShared b st.blocks,
                 strongs := st.strongs ++ [⟨⟨p, some b⟩, false⟩] } := by
  have hlen : (updateAt incShared b st.blocks).length = st.blocks.length :=
    length_updateAt _ _ _
  refine ⟨?_, ?_, ?_, ?_, ?_, ?_⟩
  · intro sl hsl b' hcb
    rcases List.mem_append.mp hsl with hsl | hsl
    · simpa [hlen] using h.sBound sl hsl b' hcb
    · simp only [List.mem_singleton] at hsl
      subst hsl
      have hbb : b = b' := by simpa using hcb
      simpa [hlen, ← hbb] using hb
  · intro wl hwl b' hcb
    simpa [hlen] using h.wBound wl hwl b' hcb
  · intro b' hb'
    have hb'' : b' < st.blocks.length := by simpa [hlen] using hb'
    have hc := h.okShared b' hb''
    simp only [getBlock, aliveStrongOn] at hc ⊢
    simp only [List.countP_append, countP_single]
    by_cases he : b' = b
    · subst he
      have hP : strongPred b' (⟨⟨p, some b'⟩, false⟩ : StrongSlot) = true := by
        simp [strongPred]
      simp only [getD_updateAt_self incShared b' st.blocks default hb'',
        incShared_shared_count, hc, hP, if_pos]
    · have hP : strongPred b' (⟨⟨p, some b⟩, false⟩ : StrongSlot) = false := by
        simp only [strongPred_mk, Bool.not_false, Bool.true_and,
          decide_eq_false_iff_not]
        intro hx
        exact he (Option.some.inj hx).symm
      simp only [getD_updateAt_ne incShared b b' st.blocks default he, hc, hP,
        Bool.false_eq_true, if_false, Nat.add_zero]
  · intro b' hb'
    have hb'' : b' < st.blocks.length := by simpa [hlen] using hb'
    have hc := h.okWeak b' hb''
    simp only [getBlock, aliveWeakOn] at hc ⊢
    by_cases he : b' = b
    · subst he
      simp only [getD_updateAt_self incShared b' st.blocks default hb'',
        incShared_weak_count, hc]
    · simp only [getD_updateAt_ne incShared b b' st.blocks default he, hc]
  · intro b' hb'
    have hb'' : b' < st.blocks.length := by simpa [hlen] using hb'
    have hd := h.okDestroy b' hb''
    have hs := hpos
    simp only [getBlock] at hd hs ⊢
    by_cases he : b' = b
    · subst he
      simp only [getD_updateAt_self incShared b' st.blocks default hb'',
        incShared_destroyCalls, incShared_shared_count]
      rw [hd]
      split_ifs <;> first | rfl | omega | simp_all
    · simp only [getD_updateAt_ne incShared b b' st.blocks default he, hd]
  · intro b' hb'
    have hb'' : b' < st.blocks.length := by simpa [hlen] using hb'
    have hd := h.okDealloc b' hb''
    have hs := hpos
    simp only [getBlock] at hd hs ⊢
    by_cases he : b' = b
    · subst he
      simp only [getD_updateAt_self incShared b' st.blocks default hb'',
        incShared_deallocCalls, incShared_shared_count, incShared_weak_count]
      rw [hd]
      split_ifs <;> first | rfl | omega | simp_all
    · simp only [getD_updateAt_ne incShared b b' st.blocks default he, hd]

/-- Incrementing the weak count of a block that still has an alive handle
(strong or weak) while pushing a fresh alive weak handle to it (the effect of
`WeakPtr` construction from a live strong or weak handle) preserves
well-formedness. -/
theorem wf_incWeakPush (st : World) (h : WF st) (b : Nat) (p : Option Addr)
    (hb : b < st.blocks.length)
    (hpos : 0 < (getBlock st b).shared_count ∨ 0 < (getBlock st b).weak_count) :
    WF { st with blocks := updateAt incWeak b st.blocks,
                 weaks := st.weaks ++ [⟨⟨p, some b⟩, false⟩] } := by
  have hlen : (updateAt incWeak b st.blocks).length = st.blocks.length :=
    length_updateAt _ _ _
  refine ⟨?_, ?_, ?_, ?_, ?_, ?_⟩
  · intro sl hsl b' hcb
    simpa [hlen] using h.sBound sl hsl b' hcb
  · intro wl hwl b' hcb
    rcases List.mem_append.mp hwl with hwl | hwl
    · simpa [hlen] using h.wBound wl hwl b' hcb
    · simp only [List.mem_singleton] at hwl
      subst hwl
      have hbb : b = b' := by simpa using hcb
      simpa [hlen, ← hbb] using hb
  · intro b' hb'
    have hb'' : b' < st.blocks.length := by simpa [hlen] using hb'
    have hc := h.okShared b' hb''
    simp only [getBlock, aliveStrongOn] at hc ⊢
    by_cases he : b' = b
    · subst he
      simp only [getD_updateAt_self incWeak b' st.blocks default hb'',
        incWeak_shared_count, hc]
    · simp only [getD_updateAt_ne incWeak b b' st.blocks default he, hc]
  · intro b' hb'
    have hb'' : b' < st.blocks.length := by simpa [hlen] using hb'
    have hc := h.okWeak b' hb''
    simp only [getBlock, aliveWeakOn] at hc ⊢
    simp only [List.countP_append, countP_single]
    by_cases he : b' = b
    · subst he
      have hP : weakPred b' (⟨⟨p, some b'⟩, false⟩ : WeakSlot) = true := by
        simp [weakPred]
      simp only [getD_updateAt_self incWeak b' st.blocks default hb'',
        incWeak_weak_count, hc, hP, if_pos]
    · have hP : weakPred b' (⟨⟨p, some b⟩, false⟩ : WeakSlot) = false := by
        simp only [weakPred_mk, Bool.not_false, Bool.true_and,
          decide_eq_false_iff_not]
        intro hx
        exact he (Option.some.inj hx).symm
      simp only [getD_updateAt_ne incWeak b b' st.blocks default he, hc, hP,
        Bool.false_eq_true, if_false, Nat.add_zero]
  · intro b' hb'
    have hb'' : b' < st.blocks.length := by simpa [hlen] using hb'
    have hd := h.okDestroy b' hb''
    simp only [getBlock] at hd ⊢
    by_cases he : b' = b
    · subst he
      simp only [getD_updateAt_self incWeak b' st.blocks default hb'',
        incWeak_destroyCalls, incWeak_shared_count, hd]
    · simp only [getD_updateAt_ne incWeak b b' st.blocks default he, hd]
  · intro b' hb'
    have hb'' : b' < st.blocks.length := by simpa [hlen] using hb'
    have hd := h.okDealloc b' hb''
    have hs := hpos
    simp only [getBlock] at hd hs ⊢
    by_cases he : b' = b
    · subst he
      simp only [getD_updateAt_self incWeak b' st.blocks default hb'',
        incWeak_deallocCalls, incWeak_shared_count, incWeak_weak_count]
      rw [hd]
      split_ifs <;> first | rfl | omega | simp_all
    · simp only [getD_updateAt_ne incWeak b b' st.blocks default he, hd]

theorem mem_of_getElem? {α : Type} {l : List α} {i : Nat} {x : α}
    (h : l[i]? = some x) : x ∈ l := by
  induction l generalizing i with
  | nil => simp at h
  | cons a l ih =>
    cases i with
    | zero =>
      simp only [List.getElem?_cons_zero, Option.some.injEq] at h
      simp [h]
    | succ i =>
      simp only [List.getElem?_cons_succ] at h
      exact List.mem_cons_of_mem _ (ih h)

theorem getElem?_some_lt {α : Type} {l : List α} {i : Nat} {x : α}
    (h : l[i]? = some x) : i < l.length := by
  induction l generalizing i with
  | nil => simp at h
  | cons a l ih =>
    cases i with
    | zero => simp
    | succ i =>
      simp only [List.getElem?_cons_succ] at h
      simpa [Nat.succ_lt_succ_iff] using ih h

theorem getD_eq_of_getElem? {α : Type} {l : List α} {i : Nat} {x : α} (d : α)
    (h : l[i]? = some x) : l.getD i d = x := by
  induction l generalizing i with
  | nil => simp at h
  | cons a l ih =>
    cases i with
    | zero =>
      simp only [List.getElem?_cons_zero, Option.some.injEq] at h
      simp [List.getD, h]
    | succ i =>
      simp only [List.getElem?_cons_succ] at h
      simpa [List.getD] using ih h

theorem strongPred_cb {b : Nat} {sl : StrongSlot} (h : strongPred b sl = true) :
    sl.h.cb = some b := by
  simp only [strongPred, Bool.and_eq_true, decide_eq_true_eq] at h
  exact h.2

theorem weakPred_cb {b : Nat} {wl : WeakSlot} (h : weakPred b wl = true) :
    wl.h.cb = some b := by
  simp only [weakPred, Bool.and_eq_true, decide_eq_true_eq] at h
  exact h.2

/-- Appending a fresh block with counts `(1, 0)` together with a fresh alive
strong handle referencing it (the effect of raw-pointer adoption and of the
factory) preserves well-formedness. -/
theorem wf_appendFresh (st : World) (h : WF st) (k : CBKind) (dt al : Nat) (p : Option Addr) :
    WF { st with blocks := st.blocks ++ [⟨1, 0, k, dt, al, 0, 0⟩],
                 strongs := st.strongs ++ [⟨⟨p, some st.blocks.length⟩, false⟩] } := by
  have hcS : ∀ b', List.countP (strongPred b') st.strongs
      = aliveStrongOn st b' := fun _ => rfl
  refine ⟨?_, ?_, ?_, ?_, ?_, ?_⟩
  · intro sl hsl b' hcb
    rcases List.mem_append.mp hsl with hsl | hsl
    · have := h.sBound sl hsl b' hcb
      simp only [List.length_append, List.length_singleton]
      omega
    · simp only [List.mem_singleton] at hsl
      subst hsl
      have : st.blocks.length = b' := by simpa using hcb
      simp only [List.length_append, List.length_singleton]
      omega
  · intro wl hwl b' hcb
    have := h.wBound wl hwl b' hcb
    simp only [List.length_append, List.length_singleton]
    omega
  · intro b' hb'
    simp only [getBlock, aliveStrongOn, List.countP_append, countP_single]
    simp only [List.length_append, List.length_singleton] at hb'
    by_cases he : b' = st.blocks.length
    · rw [he]
      simp only [getD_append_length]
      have hz : List.countP (strongPred st.blocks.length) st.strongs = 0 := by
        refine countP_eq_zero_of_forall _ _ ?_
        intro sl hsl
        by_contra hq
        have hcb := strongPred_cb (by simpa using hq)
        exact absurd (h.sBound sl hsl st.blocks.length hcb) (lt_irrefl _)
      have hP : strongPred st.blocks.length
          (⟨⟨p, some st.blocks.length⟩, false⟩ : StrongSlot) = true := by
        simp [strongPred]
      rw [hz, hP, if_pos rfl]
    · have hlt : b' < st.blocks.length := by omega
      simp only [getD_append_left _ _ _ _ hlt]
      have hc := h.okShared b' hlt
      simp only [getBlock, aliveStrongOn] at hc
      have hP : strongPred b' (⟨⟨p, some st.blocks.length⟩, false⟩ : StrongSlot) = false := by
        simp only [strongPred_mk, Bool.not_false, Bool.true_and, decide_eq_false_iff_not]
        intro hx
        exact he (Option.some.inj hx).symm
      rw [hc, hP]
      simp
  · intro b' hb'
    simp only [getBlock, aliveWeakOn]
    simp only [List.length_append, List.length_singleton] at hb'
    by_cases he : b' = st.blocks.length
    · rw [he]
      simp only [getD_append_length]
      have hz : List.countP (weakPred st.blocks.length) st.weaks = 0 := by
        refine countP_eq_zero_of_forall _ _ ?_
        intro wl hwl
        by_contra hq
        have hcb := weakPred_cb (by simpa using hq)
        exact absurd (h.wBound wl hwl st.blocks.length hcb) (lt_irrefl _)
      rw [hz]
    · have hlt : b' < st.blocks.length := by omega
      simp only [getD_append_left _ _ _ _ hlt]
      have hc := h.okWeak b' hlt
      simp only [getBlock, aliveWeakOn] at hc
      exact hc
  · intro b' hb'
    simp only [getBlock]
    simp only [List.length_append, List.length_singleton] at hb'
    by_cases he : b' = st.blocks.length
    · rw [he]
      simp only [getD_append_length]
      simp
    · have hlt : b' < st.blocks.length := by omega
      simp only [getD_append_left _ _ _ _ hlt]
      have hc := h.okDestroy b' hlt
      simp only [getBlock] at hc
      exact hc
  · intro b' hb'
    simp only [getBlock]
    simp only [List.length_append, List.length_singleton] at hb'
    by_cases he : b' = st.blocks.length
    · rw [he]
      simp only [getD_append_length]
      simp
    · have hlt : b' < st.blocks.length := by omega
      simp only [getD_append_left _ _ _ _ hlt]
      have hc := h.okDealloc b' hlt
      simp only [getBlock] at hc
      exact hc

/-- Releasing an alive strong handle on block `b` (running `~SharedPtr` on it
and retiring its slot to an uncounted one: released, or alive but emptied by
`reset()`) preserves well-formedness. -/
theorem wf_releaseStrong (st : World) (h : WF st) (i : Nat) (s : SharedPtr) (b : Nat)
    (hi : st.strongs[i]? = some ⟨s, false⟩) (hcb : s.cb = some b)
    (nsl : StrongSlot)
    (hnP : ∀ b', strongPred b' nsl = false)
    (hnb : ∀ b', nsl.h.cb = some b' → b' < st.blocks.length) :
    WF { st with blocks := updateAt releaseStrongCB b st.blocks,
                 strongs := updateAt (fun _ => nsl) i st.strongs } := by
  have hmem : (⟨s, false⟩ : StrongSlot) ∈ st.strongs := mem_of_getElem? hi
  have hb : b < st.blocks.length := h.sBound _ hmem b hcb
  have hiLen : i < st.strongs.length := getElem?_some_lt hi
  have hgetS : st.strongs.getD i default = ⟨s, false⟩ := getD_eq_of_getElem? default hi
  have hlen : (updateAt releaseStrongCB b st.blocks).length = st.blocks.length :=
    length_updateAt _ _ _
  have hPb : strongPred b (⟨s, false⟩ : StrongSlot) = true := by simp [strongPred, hcb]
  have hposA : 0 < aliveStrongOn st b := countP_pos_of_getElem _ _ i _ hi hPb
  have hsh := h.okShared b hb
  have hcount : ∀ b', List.countP (strongPred b') (updateAt (fun _ => nsl) i st.strongs)
      + (if strongPred b' (⟨s, false⟩ : StrongSlot) then 1 else 0)
      = List.countP (strongPred b') st.strongs := by
    intro b'
    have := countP_updateAt (strongPred b') (fun _ => nsl) i st.strongs default hiLen
    rw [hgetS] at this
    simpa [hnP b'] using this
  refine ⟨?_, ?_, ?_, ?_, ?_, ?_⟩
  · intro sl hsl b' hcb'
    rcases mem_updateAt_const nsl i st.strongs sl hsl with hsl | hsl
    · simpa [hlen] using h.sBound sl hsl b' hcb'
    · subst hsl
      simpa [hlen] using hnb b' hcb'
  · intro wl hwl b' hcb'
    simpa [hlen] using h.wBound wl hwl b' hcb'
  · intro b' hb'
    have hb'' : b' < st.blocks.length := by simpa [hlen] using hb'
    have hc := h.okShared b' hb''
    simp only [getBlock, aliveStrongOn] at hc hsh ⊢
    by_cases he : b' = b
    · subst he
      simp only [getD_updateAt_self releaseStrongCB b' st.blocks default hb'',
        releaseStrongCB_shared]
      have hcc := hcount b'
      rw [hPb, if_pos rfl] at hcc
      simp only [aliveStrongOn] at hposA
      omega
    · have hP : strongPred b' (⟨s, false⟩ : StrongSlot) = false := by
        simp only [strongPred_mk, Bool.not_false, Bool.true_and, decide_eq_false_iff_not,
          hcb]
        intro hx
        exact he (Option.some.inj hx).symm
      have hcc := hcount b'
      rw [hP] at hcc
      simp only [Bool.false_eq_true, if_false, Nat.add_zero] at hcc
      simp only [getD_updateAt_ne releaseStrongCB b b' st.blocks default he, hc, hcc]
  · intro b' hb'
    have hb'' : b' < st.blocks.length := by simpa [hlen] using hb'
    have hc := h.okWeak b' hb''
    simp only [getBlock, aliveWeakOn] at hc ⊢
    by_cases he : b' = b
    · subst he
      simp only [getD_updateAt_self releaseStrongCB b' st.blocks default hb'',
        releaseStrongCB_weak, hc]
    · simp only [getD_updateAt_ne releaseStrongCB b b' st.blocks default he, hc]
  · intro b' hb'
    have hb'' : b' < st.blocks.length := by simpa [hlen] using hb'
    have hd := h.okDestroy b' hb''
    have hsp := hsh
    simp only [getBlock, aliveStrongOn] at hd hsp ⊢
    by_cases he : b' = b
    · subst he
      simp only [getD_updateAt_self releaseStrongCB b' st.blocks default hb'',
        releaseStrongCB_destroyCalls, releaseStrongCB_shared]
      rw [hd]
      have : 0 < (st.blocks.getD b' default).shared_count := by
        simp only [aliveStrongOn] at hposA
        omega
      split_ifs <;> first | rfl | omega
    · simp only [getD_updateAt_ne releaseStrongCB b b' st.blocks default he, hd]
  · intro b' hb'
    have hb'' : b' < st.blocks.length := by simpa [hlen] using hb'
    have hd := h.okDealloc b' hb''
    have hsp := hsh
    simp only [getBlock, aliveStrongOn] at hd hsp ⊢
    by_cases he : b' = b
    · subst he
      simp only [getD_updateAt_self releaseStrongCB b' st.blocks default hb'',
        releaseStrongCB_deallocCalls, releaseStrongCB_shared, releaseStrongCB_weak]
      rw [hd]
      have : 0 < (st.blocks.getD b' default).shared_count := by
        simp only [aliveStrongOn] at hposA
        omega
      split_ifs <;> first | rfl | omega
    · simp only [getD_updateAt_ne releaseStrongCB b b' st.blocks default he, hd]

/-- Releasing an alive weak handle on block `b` (running `~WeakPtr` on it and
retiring its slot to an uncounted one) preserves well-formedness. -/
theorem wf_releaseWeak (st : World) (h : WF st) (i : Nat) (w : WeakPtr) (b : Nat)
    (hi : st.weaks[i]? = some ⟨w, false⟩) (hcb : w.cb = some b)
    (nwl : WeakSlot)
    (hnP : ∀ b', weakPred b' nwl = false)
    (hnb : ∀ b', nwl.h.cb = some b' → b' < st.blocks.length) :
    WF { st with blocks := updateAt releaseWeakCB b st.blocks,
                 weaks := updateAt (fun _ => nwl) i st.weaks } := by
  have hmem : (⟨w, false⟩ : WeakSlot) ∈ st.weaks := mem_of_getElem? hi
  have hb : b < st.blocks.length := h.wBound _ hmem b hcb
  have hiLen : i < st.weaks.length := getElem?_some_lt hi
  have hgetW : st.weaks.getD i default = ⟨w, false⟩ := getD_eq_of_getElem? default hi
  have hlen : (updateAt releaseWeakCB b st.blocks).length = st.blocks.length :=
    length_updateAt _ _ _
  have hPb : weakPred b (⟨w, false⟩ : WeakSlot) = true := by simp [weakPred, hcb]
  have hposA : 0 < aliveWeakOn st b := countP_pos_of_getElem _ _ i _ hi hPb
  have hwk := h.okWeak b hb
  have hcount : ∀ b', List.countP (weakPred b') (updateAt (fun _ => nwl) i st.weaks)
      + (if weakPred b' (⟨w, false⟩ : WeakSlot) then 1 else 0)
      = List.countP (weakPred b') st.weaks := by
    intro b'
    have := countP_updateAt (weakPred b') (fun _ => nwl) i st.weaks default hiLen
    rw [hgetW] at this
    simpa [hnP b'] using this
  refine ⟨?_, ?_, ?_, ?_, ?_, ?_⟩
  · intro sl hsl b' hcb'
    simpa [hlen] using h.sBound sl hsl b' hcb'
  · intro wl hwl b' hcb'
    rcases mem_updateAt_const nwl i st.weaks wl hwl with hwl | hwl
    · simpa [hlen] using h.wBound wl hwl b' hcb'
    · subst hwl
      simpa [hlen] using hnb b' hcb'
  · intro b' hb'
    have hb'' : b' < st.blocks.length := by simpa [hlen] using hb'
    have hc := h.okShared b' hb''
    simp only [getBlock, aliveStrongOn] at hc ⊢
    by_cases he : b' = b
    · subst he
      simp only [getD_updateAt_self releaseWeakCB b' st.blocks default hb'',
        releaseWeakCB_shared, hc]
    · simp only [getD_updateAt_ne releaseWeakCB b b' st.blocks default he, hc]
  · intro b' hb'
    have hb'' : b' < st.blocks.length := by simpa [hlen] using hb'
    have hc := h.okWeak b' hb''
    simp only [getBlock, aliveWeakOn] at hc hwk ⊢
    by_cases he : b' = b
    · subst he
      simp only [getD_updateAt_self releaseWeakCB b' st.blocks default hb'',
        releaseWeakCB_weak]
      have hcc := hcount b'
      rw [hPb, if_pos rfl] at hcc
      simp only [aliveWeakOn] at hposA
      omega
    · have hP : weakPred b' (⟨w, false⟩ : WeakSlot) = false := by
        simp only [weakPred_mk, Bool.not_false, Bool.true_and, decide_eq_false_iff_not,
          hcb]
        intro hx
        exact he (Option.some.inj hx).symm
      have hcc := hcount b'
      rw [hP] at hcc
      simp only [Bool.false_eq_true, if_false, Nat.add_zero] at hcc
      simp only [getD_updateAt_ne releaseWeakCB b b' st.blocks default he, hc, hcc]
  · intro b' hb'
    have hb'' : b' < st.blocks.length := by simpa [hlen] using hb'
    have hd := h.okDestroy b' hb''
    simp only [getBlock] at hd ⊢
    by_cases he : b' = b
    · subst he
      simp only [getD_updateAt_self releaseWeakCB b' st.blocks default hb'',
        releaseWeakCB_destroyCalls, releaseWeakCB_shared, hd]
    · simp only [getD_updateAt_ne releaseWeakCB b b' st.blocks default he, hd]
  · intro b' hb'
    have hb'' : b' < st.blocks.length := by simpa [hlen] using hb'
    have hd := h.okDealloc b' hb''
    have hwp := hwk
    simp only [getBlock, aliveWeakOn] at hd hwp ⊢
    by_cases he : b' = b
    · subst he
      simp only [getD_updateAt_self releaseWeakCB b' st.blocks default hb'',
        releaseWeakCB_deallocCalls, releaseWeakCB_shared, releaseWeakCB_weak]
      rw [hd]
      have : 0 < (st.blocks.getD b' default).weak_count := by
        simp only [aliveWeakOn] at hposA
        omega
      split_ifs <;> first | rfl | omega
    · simp only [getD_updateAt_ne releaseWeakCB b b' st.blocks default he, hd]

/-- Pushing an alive strong handle with no block preserves well-formedness. -/
theorem wf_pushStrongNone (st : World) (h : WF st) (p : Option Addr) :
    WF { st with strongs := st.strongs ++ [⟨⟨p, none⟩, false⟩] } := by
  refine wf_strongs_congr st h _ ?_ ?_
  · intro sl hsl b hcb
    rcases List.mem_append.mp hsl with hsl | hsl
    · exact h.sBound sl hsl b hcb
    · simp only [List.mem_singleton] at hsl
      subst hsl
      simp at hcb
  · intro b
    simp [List.countP_append, countP_single, strongPred]

/-- Pushing an alive weak handle with no block preserves well-formedness. -/
theorem wf_pushWeakNone (st : World) (h : WF st) (p : Option Addr) :
    WF { st with weaks := st.weaks ++ [⟨⟨p, none⟩, false⟩] } := by
  refine wf_weaks_congr st h _ ?_ ?_
  · intro wl hwl b hcb
    rcases List.mem_append.mp hwl with hwl | hwl
    · exact h.wBound wl hwl b hcb
    · simp only [List.mem_singleton] at hwl
      subst hwl
      simp at hcb
  · intro b
    simp [List.countP_append, countP_single, weakPred]

/-- Moving from an alive strong handle: the source slot is emptied and the
moved-to handle is pushed; per-block counts are unchanged. -/
theorem wf_moveStrong (st : World) (h : WF st) (i : Nat) (s : SharedPtr)
    (hi : st.strongs[i]? = some ⟨s, false⟩) :
    WF { st with strongs :=
          updateAt (fun _ => (⟨⟨none, none⟩, false⟩ : StrongSlot)) i st.strongs
            ++ [⟨s, false⟩] } := by
  have hiLen := getElem?_some_lt hi
  have hget := getD_eq_of_getElem? default hi
  refine wf_strongs_congr st h _ ?_ ?_
  · intro sl hsl b hcb
    rcases List.mem_append.mp hsl with hsl | hsl
    · rcases mem_updateAt_const _ i st.strongs sl hsl with hsl | hsl
      · exact h.sBound sl hsl b hcb
      · subst hsl
        simp at hcb
    · simp only [List.mem_singleton] at hsl
      subst hsl
      exact h.sBound _ (mem_of_getElem? hi) b hcb
  · intro b
    have hcu := countP_updateAt (strongPred b)
      (fun _ => (⟨⟨none, none⟩, false⟩ : StrongSlot)) i st.strongs default hiLen
    rw [hget] at hcu
    have hz : strongPred b (⟨⟨none, none⟩, false⟩ : StrongSlot) = false := by
      simp [strongPred]
    rw [hz] at hcu
    simp only [Bool.false_eq_true, if_false, Nat.add_zero] at hcu
    simp only [List.countP_append, countP_single]
    omega

/-- Moving from an alive weak handle: source emptied, target pushed. -/
theorem wf_moveWeak (st : World) (h : WF st) (i : Nat) (w : WeakPtr)
    (hi : st.weaks[i]? = some ⟨w, false⟩) :
    WF { st with weaks :=
          updateAt (fun _ => (⟨⟨none, none⟩, false⟩ : WeakSlot)) i st.weaks
            ++ [⟨w, false⟩] } := by
  have hiLen := getElem?_some_lt hi
  have hget := getD_eq_of_getElem? default hi
  refine wf_weaks_congr st h _ ?_ ?_
  · intro wl hwl b hcb
    rcases List.mem_append.mp hwl with hwl | hwl
    · rcases mem_updateAt_const _ i st.weaks wl hwl with hwl | hwl
      · exact h.wBound wl hwl b hcb
      · subst hwl
        simp at hcb
    · simp only [List.mem_singleton] at hwl
      subst hwl
      exact h.wBound _ (mem_of_getElem? hi) b hcb
  · intro b
    have hcu := countP_updateAt (weakPred b)
      (fun _ => (⟨⟨none, none⟩, false⟩ : WeakSlot)) i st.weaks default hiLen
    rw [hget] at hcu
    have hz : weakPred b (⟨⟨none, none⟩, false⟩ : WeakSlot) = false := by
      simp [weakPred]
    rw [hz] at hcu
    simp only [Bool.false_eq_true, if_false, Nat.add_zero] at hcu
    simp only [List.countP_append, countP_single]
    omega

/-- Retiring an alive strong slot whose handle has no block (release or reset
of an empty handle): counts and blocks are untouched. -/
theorem wf_retireStrongNone (st : World) (h : WF st) (i : Nat) (s : SharedPtr)
    (hi : st.strongs[i]? = some ⟨s, false⟩) (hcb : s.cb = none) (nsl : StrongSlot)
    (hnP : ∀ b', strongPred b' nsl = false)
    (hnb : ∀ b', nsl.h.cb = some b' → b' < st.blocks.length) :
    WF { st with strongs := updateAt (fun _ => nsl) i st.strongs } := by
  have hiLen := getElem?_some_lt hi
  have hget := getD_eq_of_getElem? default hi
  refine wf_strongs_congr st h _ ?_ ?_
  · intro sl hsl b hcb'
    rcases mem_updateAt_const nsl i st.strongs sl hsl with hsl | hsl
    · exact h.sBound sl hsl b hcb'
    · subst hsl
      exact hnb b hcb'
  · intro b
    have hcu := countP_updateAt (strongPred b) (fun _ => nsl) i st.strongs default hiLen
    rw [hget] at hcu
    have hz : strongPred b (⟨s, false⟩ : StrongSlot) = false := by
      simp [strongPred, hcb]
    rw [hz, hnP b] at hcu
    simpa using hcu

/-- Retiring an alive weak slot whose handle has no block. -/
theorem wf_retireWeakNone (st : World) (h : WF st) (i : Nat) (w : WeakPtr)
    (hi : st.weaks[i]? = some ⟨w, false⟩) (hcb : w.cb = none) (nwl : WeakSlot)
    (hnP : ∀ b', weakPred b' nwl = false)
    (hnb : ∀ b', nwl.h.cb = some b' → b' < st.blocks.length) :
    WF { st with weaks := updateAt (fun _ => nwl) i st.weaks } := by
  have hiLen := getElem?_some_lt hi
  have hget := getD_eq_of_getElem? default hi
  refine wf_weaks_congr st h _ ?_ ?_
  · intro wl hwl b hcb'
    rcases mem_updateAt_const nwl i st.weaks wl hwl with hwl | hwl
    · exact h.wBound wl hwl b hcb'
    · subst hwl
      exact hnb b hcb'
  · intro b
    have hcu := countP_updateAt (weakPred b) (fun _ => nwl) i st.weaks default hiLen
    rw [hget] at hcu
    have hz : weakPred b (⟨w, false⟩ : WeakSlot) = false := by
      simp [weakPred, hcb]
    rw [hz, hnP b] at hcu
    simpa using hcu

/-- An alive strong slot on block `b` forces a strictly positive strong count. -/
theorem shared_pos_of_slot (st : World) (h : WF st) (i : Nat) (s : SharedPtr) (b : Nat)
    (hi : st.strongs[i]? = some ⟨s, false⟩) (hcb : s.cb = some b) :
    0 < (getBlock st b).shared_count := by
  have hb : b < st.blocks.length := h.sBound _ (mem_of_getElem? hi) b hcb
  have hP : strongPred b (⟨s, false⟩ : StrongSlot) = true := by simp [strongPred, hcb]
  have := countP_pos_of_getElem _ _ i _ hi hP
  have hc := h.okShared b hb
  simp only [aliveStrongOn] at hc
  omega

/-- An alive weak slot on block `b` forces a strictly positive weak count. -/
theorem weak_pos_of_slot (st : World) (h : WF st) (i : Nat) (w : WeakPtr) (b : Nat)
    (hi : st.weaks[i]? = some ⟨w, false⟩) (hcb : w.cb = some b) :
    0 < (getBlock st b).weak_count := by
  have hb : b < st.blocks.length := h.wBound _ (mem_of_getElem? hi) b hcb
  have hP : weakPred b (⟨w, false⟩ : WeakSlot) = true := by simp [weakPred, hcb]
  have := countP_pos_of_getElem _ _ i _ hi hP
  have hc := h.okWeak b hb
  simp only [aliveWeakOn] at hc
  omega

/-- The master invariant: every lifecycle event preserves well-formedness. -/
theorem wf_step (st : World) (op : Op) (h : WF st) : WF (step st op) := by
  cases op with
  | adoptNew p =>
    exact wf_appendFresh st h (.regular p) 0 0 p
  | mkShared args =>
    have hstep : step st (.mkShared args)
        = { st with
            blocks := st.blocks ++ [⟨1, 0, .makeShared args, 0, 0, 0, 0⟩],
            strongs := st.strongs
              ++ [⟨⟨some (.inlineAddr st.blocks.length), some st.blocks.length⟩, false⟩] } := by
      simp [step, allocateShared_ok]
    rw [hstep]
    exact wf_appendFresh st h (.makeShared args) 0 0 _
  | scopy i =>
    cases hsl : st.strongs[i]? with
    | none => simpa [step, hsl] using h
    | some sl =>
      obtain ⟨s, r⟩ := sl
      cases r with
      | true => simpa [step, hsl] using h
      | false =>
        cases hcb : s.cb with
        | none =>
          simpa [step, hsl, sharedCopy, hcb] using wf_pushStrongNone st h s.ptr
        | some b =>
          have hb : b < st.blocks.length := h.sBound _ (mem_of_getElem? hsl) b hcb
          have hpos := shared_pos_of_slot st h i s b hsl hcb
          simpa [step, hsl, sharedCopy, hcb, updBlock] using
            wf_incStrongPush st h b s.ptr hb hpos
  | smove i =>
    cases hsl : st.strongs[i]? with
    | none => simpa [step, hsl] using h
    | some sl =>
      obtain ⟨s, r⟩ := sl
      cases r with
      | true => simpa [step, hsl] using h
      | false => simpa [step, hsl] using wf_moveStrong st h i s hsl
  | srelease i =>
    cases hsl : st.strongs[i]? with
    | none => simpa [step, hsl] using h
    | some sl =>
      obtain ⟨s, r⟩ := sl
      cases r with
      | true => simpa [step, hsl] using h
      | false =>
        cases hcb : s.cb with
        | none =>
          refine ?_
          have hw := wf_retireStrongNone st h i s hsl hcb ⟨s, true⟩
            (by intro b'; simp [strongPred])
            (by
              intro b' hcb'
              have hx : s.cb = some b' := hcb'
              rw [hcb] at hx
              cases hx)
          simpa [step, hsl, sharedDtor, hcb] using hw
        | some b =>
          have hb : b < st.blocks.length := h.sBound _ (mem_of_getElem? hsl) b hcb
          have hspec := sharedDtor_spec s st b hcb hb
          have hw := wf_releaseStrong st h i s b hsl hcb ⟨s, true⟩
            (by intro b'; simp [strongPred])
            (by
              intro b' hcb'
              have hx : s.cb = some b' := hcb'
              rw [hcb] at hx
              obtain rfl : b = b' := Option.some.inj hx
              exact hb)
          simpa [step, hsl, hspec, updBlock] using hw
  | sreset i =>
    cases hsl : st.strongs[i]? with
    | none => simpa [step, hsl] using h
    | some sl =>
      obtain ⟨s, r⟩ := sl
      cases r with
      | true => simpa [step, hsl] using h
      | false =>
        cases hcb : s.cb with
        | none =>
          have hw := wf_retireStrongNone st h i s hsl hcb ⟨⟨none, none⟩, false⟩
            (by intro b'; simp [strongPred])
            (by
              intro b' hcb'
              have hx : (none : Option Nat) = some b' := hcb'
              cases hx)
          simpa [step, hsl, sharedDtor, hcb] using hw
        | some b =>
          have hb : b < st.blocks.length := h.sBound _ (mem_of_getElem? hsl) b hcb
          have hspec := sharedDtor_spec s st b hcb hb
          have hw := wf_releaseStrong st h i s b hsl hcb ⟨⟨none, none⟩, false⟩
            (by intro b'; simp [strongPred])
            (by
              intro b' hcb'
              have hx : (none : Option Nat) = some b' := hcb'
              cases hx)
          simpa [step, hsl, hspec, updBlock] using hw
  | wfromS i =>
    cases hsl : st.strongs[i]? with
    | none => simpa [step, hsl] using h
    | some sl =>
      obtain ⟨s, r⟩ := sl
      cases r with
      | true => simpa [step, hsl] using h
      | false =>
        cases hcb : s.cb with
        | none =>
          simpa [step, hsl, weakFromShared, sharedCopy, sharedDtor, hcb] using
            wf_pushWeakNone st h s.ptr
        | some b =>
          have hb : b < st.blocks.length := h.sBound _ (mem_of_getElem? hsl) b hcb
          have hpos := shared_pos_of_slot st h i s b hsl hcb
          have hspec := weakFromShared_spec s st b hcb hb hpos
          simpa [step, hsl, hspec, updBlock] using
            wf_incWeakPush st h b s.ptr hb (Or.inl hpos)
  | wcopy i =>
    cases hsl : st.weaks[i]? with
    | none => simpa [step, hsl] using h
    | some wl =>
      obtain ⟨w, r⟩ := wl
      cases r with
      | true => simpa [step, hsl] using h
      | false =>
        cases hcb : w.cb with
        | none =>
          simpa [step, hsl, weakCopy, hcb] using wf_pushWeakNone st h w.ptr
        | some b =>
          have hb : b < st.blocks.length := h.wBound _ (mem_of_getElem? hsl) b hcb
          have hpos := weak_pos_of_slot st h i w b hsl hcb
          simpa [step, hsl, weakCopy, hcb, updBlock] using
            wf_incWeakPush st h b w.ptr hb (Or.inr hpos)
  | wmove i =>
    cases hsl : st.weaks[i]? with
    | none => simpa [step, hsl] using h
    | some wl =>
      obtain ⟨w, r⟩ := wl
      cases r with
      | true => simpa [step, hsl] using h
      | false => simpa [step, hsl] using wf_moveWeak st h i w hsl
  | wrelease i =>
    cases hsl : st.weaks[i]? with
    | none => simpa [step, hsl] using h
    | some wl =>
      obtain ⟨w, r⟩ := wl
      cases r with
      | true => simpa [step, hsl] using h
      | false =>
        cases hcb : w.cb with
        | none =>
          have hw := wf_retireWeakNone st h i w hsl hcb ⟨w, true⟩
            (by intro b'; simp [weakPred])
            (by
              intro b' hcb'
              have hx : w.cb = some b' := hcb'
              rw [hcb] at hx
              cases hx)
          simpa [step, hsl, weakDtor, hcb] using hw
        | some b =>
          have hb : b < st.blocks.length := h.wBound _ (mem_of_getElem? hsl) b hcb
          have hspec := weakDtor_spec w st b hcb hb
          have hw := wf_releaseWeak st h i w b hsl hcb ⟨w, true⟩
            (by intro b'; simp [weakPred])
            (by
              intro b' hcb'
              have hx : w.cb = some b' := hcb'
              rw [hcb] at hx
              obtain rfl : b = b' := Option.some.inj hx
              exact hb)
          simpa [step, hsl, hspec, updBlock] using hw
  | wlock i =>
    cases hsl : st.weaks[i]? with
    | none => simpa [step, hsl] using h
    | some wl =>
      obtain ⟨w, r⟩ := wl
      cases r with
      | true => simpa [step, hsl] using h
      | false =>
        cases hex : expired w st with
        | true =>
          simpa [step, hsl, lock, hex] using wf_pushStrongNone st h none
        | false =>
          cases hcb : w.cb with
          | none => exact absurd hex (by simp [expired, hcb])
          | some b =>
            have hb : b < st.blocks.length := h.wBound _ (mem_of_getElem? hsl) b hcb
            have hpos : 0 < (getBlock st b).shared_count := by
              have hx := hex
              simp only [expired, hcb, decide_eq_false_iff_not] at hx
              omega
            simpa [step, hsl, lock, hex, sharedFromWeak, hcb, updBlock] using
              wf_incStrongPush st h b w.ptr hb hpos

/-- Well-formedness of every world reachable by a finite event sequence. -/
theorem wf_foldl (st : World) (h : WF st) (ops : List Op) :
    WF (ops.foldl step st) := by
  induction ops generalizing st with
  | nil => exact h
  | cons op ops ih => exact ih (step st op) (wf_step st op h)

/-- The empty world is well-formed. -/
theorem wf_empty : WF ({} : World) := by
  refine ⟨?_, ?_, ?_, ?_, ?_, ?_⟩ <;> intro x hx <;> simp_all

/-- Every world reached by running a finite event sequence from the empty
world is well-formed. -/
theorem wf_run (ops : List Op) : WF (run ops) := wf_foldl _ wf_empty ops

end WFLemmas

section StepEquations

theorem step_adoptNew_eq (st : World) (p : Option Addr) :
    step st (.adoptNew p)
      = { st with blocks := st.blocks ++ [⟨1, 0, .regular p, 0, 0, 0, 0⟩],
                  strongs := st.strongs ++ [⟨⟨p, some st.blocks.length⟩, false⟩] } := by
  simp [step, adopt]

theorem step_mkShared_eq (st : World) (args : List Nat) :
    step st (.mkShared args)
      = { st with blocks := st.blocks ++ [⟨1, 0, .makeShared args, 0, 0, 0, 0⟩],
                  strongs := st.strongs
                    ++ [⟨⟨some (.inlineAddr st.blocks.length), some st.blocks.length⟩,
                          false⟩] } := by
  simp [step, allocateShared_ok]

theorem step_scopy_eq (st : World) (i : Nat) (s : SharedPtr) (b : Nat)
    (hsl : st.strongs[i]? = some ⟨s, false⟩) (hcb : s.cb = some b) :
    step st (.scopy i)
      = { st with blocks := updateAt incShared b st.blocks,
                  strongs := st.strongs ++ [⟨⟨s.ptr, some b⟩, false⟩] } := by
  simp [step, hsl, sharedCopy, hcb, updBlock]

theorem step_scopy_none (st : World) (i : Nat) (s : SharedPtr)
    (hsl : st.strongs[i]? = some ⟨s, false⟩) (hcb : s.cb = none) :
    step st (.scopy i) = { st with strongs := st.strongs ++ [⟨⟨s.ptr, none⟩, false⟩] } := by
  simp [step, hsl, sharedCopy, hcb]

theorem step_smove_eq (st : World) (i : Nat) (s : SharedPtr)
    (hsl : st.strongs[i]? = some ⟨s, false⟩) :
    step st (.smove i)
      = { st with strongs :=
            updateAt (fun _ => (⟨⟨none, none⟩, false⟩ : StrongSlot)) i st.strongs
              ++ [⟨s, false⟩] } := by
  simp [step, hsl]

theorem step_srelease_eq (st : World) (i : Nat) (s : SharedPtr) (b : Nat)
    (hsl : st.strongs[i]? = some ⟨s, false⟩) (hcb : s.cb = some b)
    (hb : b < st.blocks.length) :
    step st (.srelease i)
      = { st with blocks := updateAt releaseStrongCB b st.blocks,
                  strongs := updateAt (fun _ => (⟨s, true⟩ : StrongSlot)) i st.strongs } := by
  simp [step, hsl, sharedDtor_spec s st b hcb hb, updBlock]

theorem step_srelease_none (st : World) (i : Nat) (s : SharedPtr)
    (hsl : st.strongs[i]? = some ⟨s, false⟩) (hcb : s.cb = none) :
    step st (.srelease i)
      = { st with strongs := updateAt (fun _ => (⟨s, true⟩ : StrongSlot)) i st.strongs } := by
  simp [step, hsl, sharedDtor, hcb]

theorem step_sreset_eq (st : World) (i : Nat) (s : SharedPtr) (b : Nat)
    (hsl : st.strongs[i]? = some ⟨s, false⟩) (hcb : s.cb = some b)
    (hb : b < st.blocks.length) :
    step st (.sreset i)
      = { st with blocks := updateAt releaseStrongCB b st.blocks,
                  strongs :=
                    updateAt (fun _ => (⟨⟨none, none⟩, false⟩ : StrongSlot)) i st.strongs } := by
  simp [step, hsl, sharedDtor_spec s st b hcb hb, updBlock]

theorem step_sreset_none (st : World) (i : Nat) (s : SharedPtr)
    (hsl : st.strongs[i]? = some ⟨s, false⟩) (hcb : s.cb = none) :
    step st (.sreset i)
      = { st with strongs :=
            updateAt (fun _ => (⟨⟨none, none⟩, false⟩ : StrongSlot)) i st.strongs } := by
  simp [step, hsl, sharedDtor, hcb]

theorem step_wfromS_eq (st : World) (i : Nat) (s : SharedPtr) (b : Nat)
    (hsl : st.strongs[i]? = some ⟨s, false⟩) (hcb : s.cb = some b)
    (hb : b < st.blocks.length) (hpos : 0 < (getBlock st b).shared_count) :
    step st (.wfromS i)
      = { st with blocks := updateAt incWeak b st.blocks,
                  weaks := st.weaks ++ [⟨⟨s.ptr, some b⟩, false⟩] } := by
  simp [step, hsl, weakFromShared_spec s st b hcb hb hpos, updBlock]

theorem step_wfromS_none (st : World) (i : Nat) (s : SharedPtr)
    (hsl : st.strongs[i]? = some ⟨s, false⟩) (hcb : s.cb = none) :
    step st (.wfromS i) = { st with weaks := st.weaks ++ [⟨⟨s.ptr, none⟩, false⟩] } := by
  simp [step, hsl, weakFromShared, sharedCopy, sharedDtor, hcb]

theorem step_wcopy_eq (st : World) (i : Nat) (w : WeakPtr) (b : Nat)
    (hsl : st.weaks[i]? = some ⟨w, false⟩) (hcb : w.cb = some b) :
    step st (.wcopy i)
      = { st with blocks := updateAt incWeak b st.blocks,
                  weaks := st.weaks ++ [⟨⟨w.ptr, some b⟩, false⟩] } := by
  simp [step, hsl, weakCopy, hcb, updBlock]

theorem step_wcopy_none (st : World) (i : Nat) (w : WeakPtr)
    (hsl : st.weaks[i]? = some ⟨w, false⟩) (hcb : w.cb = none) :
    step st (.wcopy i) = { st with weaks := st.weaks ++ [⟨⟨w.ptr, none⟩, false⟩] } := by
  simp [step, hsl, weakCopy, hcb]

theorem step_wmove_eq (st : World) (i : Nat) (w : WeakPtr)
    (hsl : st.weaks[i]? = some ⟨w, false⟩) :
    step st (.wmove i)
      = { st with weaks :=
            updateAt (fun _ => (⟨⟨none, none⟩, false⟩ : WeakSlot)) i st.weaks
              ++ [⟨w, false⟩] } := by
  simp [step, hsl]

theorem step_wrelease_eq (st : World) (i : Nat) (w : WeakPtr) (b : Nat)
    (hsl : st.weaks[i]? = some ⟨w, false⟩) (hcb : w.cb = some b)
    (hb : b < st.blocks.length) :
    step st (.wrelease i)
      = { st with blocks := updateAt releaseWeakCB b st.blocks,
                  weaks := updateAt (fun _ => (⟨w, true⟩ : WeakSlot)) i st.weaks } := by
  simp [step, hsl, weakDtor_spec w st b hcb hb, updBlock]

theorem step_wrelease_none (st : World) (i : Nat) (w : WeakPtr)
    (hsl : st.weaks[i]? = some ⟨w, false⟩) (hcb : w.cb = none) :
    step st (.wrelease i)
      = { st with weaks := updateAt (fun _ => (⟨w, true⟩ : WeakSlot)) i st.weaks } := by
  simp [step, hsl, weakDtor, hcb]

theorem step_wlock_expired (st : World) (i : Nat) (w : WeakPtr)
    (hsl : st.weaks[i]? = some ⟨w, false⟩) (hex : expired w st = true) :
    step st (.wlock i)
      = { st with strongs := st.strongs ++ [⟨⟨none, none⟩, false⟩] } := by
  simp [step, hsl, lock, hex]

theorem step_wlock_live (st : World) (i : Nat) (w : WeakPtr) (b : Nat)
    (hsl : st.weaks[i]? = some ⟨w, false⟩) (hex : expired w st = false)
    (hcb : w.cb = some b) :
    step st (.wlock i)
      = { st with blocks := updateAt incShared b st.blocks,
                  strongs := st.strongs ++ [⟨⟨w.ptr, some b⟩, false⟩] } := by
  simp [step, hsl, lock, hex, sharedFromWeak, hcb, updBlock]

theorem step_noop_strong (st : World) (op : Op) (i : Nat)
    (hop : op = .scopy i ∨ op = .smove i ∨ op = .srelease i ∨ op = .sreset i ∨
      op = .wfromS i)
    (hsl : ∀ s, st.strongs[i]? = some s → s.released = true) :
    step st op = st := by
  rcases hop with rfl | rfl | rfl | rfl | rfl <;>
  · cases hq : st.strongs[i]? with
    | none => simp [step, hq]
    | some sl =>
      obtain ⟨s, r⟩ := sl
      have := hsl _ hq
      simp only at this
      subst this
      simp [step, hq]

theorem step_noop_weak (st : World) (op : Op) (i : Nat)
    (hop : op = .wcopy i ∨ op = .wmove i ∨ op = .wrelease i ∨ op = .wlock i)
    (hsl : ∀ wl, st.weaks[i]? = some wl → wl.released = true) :
    step st op = st := by
  rcases hop with rfl | rfl | rfl | rfl <;>
  · cases hq : st.weaks[i]? with
    | none => simp [step, hq]
    | some wl =>
      obtain ⟨w, r⟩ := wl
      have := hsl _ hq
      simp only at this
      subst this
      simp [step, hq]

end StepEquations

section Persistence

theorem blocks_length_sharedDtor (s : SharedPtr) (st : World) :
    (sharedDtor s st).blocks.length = st.blocks.length := by
  rcases hcb : s.cb with _ | b
  · simp [sharedDtor, hcb]
  · simp only [sharedDtor, hcb]
    split_ifs <;> simp [updBlock, length_updateAt]

theorem blocks_length_weakDtor (w : WeakPtr) (st : World) :
    (weakDtor w st).blocks.length = st.blocks.length := by
  rcases hcb : w.cb with _ | b
  · simp [weakDtor, hcb]
  · simp only [weakDtor, hcb]
    split_ifs <;> simp [updBlock, length_updateAt]

theorem blocks_length_weakFromShared (s : SharedPtr) (st : World) :
    ((weakFromShared s st).2).blocks.length = st.blocks.length := by
  rcases hcb : s.cb with _ | b
  · simp [weakFromShared, sharedCopy, hcb, blocks_length_sharedDtor]
  · simp [weakFromShared, sharedCopy, hcb, blocks_length_sharedDtor, updBlock,
      length_updateAt]

theorem blocks_length_lock (w : WeakPtr) (st : World) :
    ((lock w st).2).blocks.length = st.blocks.length := by
  rcases hcb : w.cb with _ | b <;>
    simp only [lock] <;> split_ifs <;>
      simp [sharedFromWeak, hcb, updBlock, length_updateAt]

/-- No lifecycle event shrinks the block table. -/
theorem length_le_step (st : World) (op : Op) :
    st.blocks.length ≤ (step st op).blocks.length := by
  cases op with
  | adoptNew p =>
    rw [step_adoptNew_eq]
    simp
  | mkShared args =>
    rw [step_mkShared_eq]
    simp
  | scopy i =>
    cases hsl : st.strongs[i]? with
    | none => simp [step, hsl]
    | some sl =>
      obtain ⟨s, r⟩ := sl
      cases r with
      | true => simp [step, hsl]
      | false =>
        cases hcb : s.cb with
        | none => rw [step_scopy_none st i s hsl hcb]
        | some b =>
          rw [step_scopy_eq st i s b hsl hcb]
          simp [length_updateAt]
  | smove i =>
    cases hsl : st.strongs[i]? with
    | none => simp [step, hsl]
    | some sl =>
      obtain ⟨s, r⟩ := sl
      cases r with
      | true => simp [step, hsl]
      | false => rw [step_smove_eq st i s hsl]
  | srelease i =>
    cases hsl : st.strongs[i]? with
    | none => simp [step, hsl]
    | some sl =>
      obtain ⟨s, r⟩ := sl
      cases r with
      | true => simp [step, hsl]
      | false =>
        simp [step, hsl, blocks_length_sharedDtor]
  | sreset i =>
    cases hsl : st.strongs[i]? with
    | none => simp [step, hsl]
    | some sl =>
      obtain ⟨s, r⟩ := sl
      cases r with
      | true => simp [step, hsl]
      | false =>
        simp [step, hsl, blocks_length_sharedDtor]
  | wfromS i =>
    cases hsl : st.strongs[i]? with
    | none => simp [step, hsl]
    | some sl =>
      obtain ⟨s, r⟩ := sl
      cases r with
      | true => simp [step, hsl]
      | false =>
        simp [step, hsl, blocks_length_weakFromShared]
  | wcopy i =>
    cases hsl : st.weaks[i]? with
    | none => simp [step, hsl]
    | some wl =>
      obtain ⟨w, r⟩ := wl
      cases r with
      | true => simp [step, hsl]
      | false =>
        cases hcb : w.cb with
        | none => rw [step_wcopy_none st i w hsl hcb]
        | some b =>
          rw [step_wcopy_eq st i w b hsl hcb]
          simp [length_updateAt]
  | wmove i =>
    cases hsl : st.weaks[i]? with
    | none => simp [step, hsl]
    | some wl =>
      obtain ⟨w, r⟩ := wl
      cases r with
      | true => simp [step, hsl]
      | false => rw [step_wmove_eq st i w hsl]
  | wrelease i =>
    cases hsl : st.weaks[i]? with
    | none => simp [step, hsl]
    | some wl =>
      obtain ⟨w, r⟩ := wl
      cases r with
      | true => simp [step, hsl]
      | false =>
        simp [step, hsl, blocks_length_weakDtor]
  | wlock i =>
    cases hsl : st.weaks[i]? with
    | none => simp [step, hsl]
    | some wl =>
      obtain ⟨w, r⟩ := wl
      cases r with
      | true => simp [step, hsl]
      | false =>
        simp [step, hsl, blocks_length_lock]

/-- Once a block's strong count is zero in a well-formed world, no lifecycle
event can make it positive again: copies need a live strong handle, and
promotion through `lock()` is blocked by the `expired()` test. -/
theorem shared_zero_step (st : World) (h : WF st) (op : Op) (b : Nat)
    (hb : b < st.blocks.length) (h0 : (getBlock st b).shared_count = 0) :
    (getBlock (step st op) b).shared_count = 0 := by
  cases op with
  | adoptNew p =>
    rw [step_adoptNew_eq]
    simp only [getBlock] at h0 ⊢
    rw [getD_append_left _ _ _ _ hb]
    exact h0
  | mkShared args =>
    rw [step_mkShared_eq]
    simp only [getBlock] at h0 ⊢
    rw [getD_append_left _ _ _ _ hb]
    exact h0
  | scopy i =>
    cases hsl : st.strongs[i]? with
    | none => simpa [step, hsl] using h0
    | some sl =>
      obtain ⟨s, r⟩ := sl
      cases r with
      | true => simpa [step, hsl] using h0
      | false =>
        cases hcb : s.cb with
        | none =>
          rw [step_scopy_none st i s hsl hcb]
          exact h0
        | some b0 =>
          by_cases he : b0 = b
          · subst he
            have := shared_pos_of_slot st h i s b0 hsl hcb
            omega
          · rw [step_scopy_eq st i s b0 hsl hcb]
            simp only [getBlock] at h0 ⊢
            rw [getD_updateAt_ne incShared b0 b st.blocks default (fun hx => he hx.symm)]
            exact h0
  | smove i =>
    cases hsl : st.strongs[i]? with
    | none => simpa [step, hsl] using h0
    | some sl =>
      obtain ⟨s, r⟩ := sl
      cases r with
      | true => simpa [step, hsl] using h0
      | false =>
        rw [step_smove_eq st i s hsl]
        exact h0
  | srelease i =>
    cases hsl : st.strongs[i]? with
    | none => simpa [step, hsl] using h0
    | some sl =>
      obtain ⟨s, r⟩ := sl
      cases r with
      | true => simpa [step, hsl] using h0
      | false =>
        cases hcb : s.cb with
        | none =>
          rw [step_srelease_none st i s hsl hcb]
          exact h0
        | some b0 =>
          have hb0 : b0 < st.blocks.length := h.sBound _ (mem_of_getElem? hsl) b0 hcb
          rw [step_srelease_eq st i s b0 hsl hcb hb0]
          simp only [getBlock] at h0 ⊢
          by_cases he : b0 = b
          · subst he
            rw [getD_updateAt_self releaseStrongCB b0 st.blocks default hb0,
              releaseStrongCB_shared]
            omega
          · rw [getD_updateAt_ne releaseStrongCB b0 b st.blocks default
              (fun hx => he hx.symm)]
            exact h0
  | sreset i =>
    cases hsl : st.strongs[i]? with
    | none => simpa [step, hsl] using h0
    | some sl =>
      obtain ⟨s, r⟩ := sl
      cases r with
      | true => simpa [step, hsl] using h0
      | false =>
        cases hcb : s.cb with
        | none =>
          rw [step_sreset_none st i s hsl hcb]
          exact h0
        | some b0 =>
          have hb0 : b0 < st.blocks.length := h.sBound _ (mem_of_getElem? hsl) b0 hcb
          rw [step_sreset_eq st i s b0 hsl hcb hb0]
          simp only [getBlock] at h0 ⊢
          by_cases he : b0 = b
          · subst he
            rw [getD_updateAt_self releaseStrongCB b0 st.blocks default hb0,
              releaseStrongCB_shared]
            omega
          · rw [getD_updateAt_ne releaseStrongCB b0 b st.blocks default
              (fun hx => he hx.symm)]
            exact h0
  | wfromS i =>
    cases hsl : st.strongs[i]? with
    | none => simpa [step, hsl] using h0
    | some sl =>
      obtain ⟨s, r⟩ := sl
      cases r with
      | true => simpa [step, hsl] using h0
      | false =>
        cases hcb : s.cb with
        | none =>
          rw [step_wfromS_none st i s hsl hcb]
          exact h0
        | some b0 =>
          have hb0 : b0 < st.blocks.length := h.sBound _ (mem_of_getElem? hsl) b0 hcb
          have hpos := shared_pos_of_slot st h i s b0 hsl hcb
          by_cases he : b0 = b
          · subst he
            omega
          · rw [step_wfromS_eq st i s b0 hsl hcb hb0 hpos]
            simp only [getBlock] at h0 ⊢
            rw [getD_updateAt_ne incWeak b0 b st.blocks default (fun hx => he hx.symm)]
            exact h0
  | wcopy i =>
    cases hsl : st.weaks[i]? with
    | none => simpa [step, hsl] using h0
    | some wl =>
      obtain ⟨w, r⟩ := wl
      cases r with
      | true => simpa [step, hsl] using h0
      | false =>
        cases hcb : w.cb with
        | none =>
          rw [step_wcopy_none st i w hsl hcb]
          exact h0
        | some b0 =>
          rw [step_wcopy_eq st i w b0 hsl hcb]
          simp only [getBlock] at h0 ⊢
          by_cases he : b0 = b
          · subst he
            have hb0 : b0 < st.blocks.length := hb
            rw [getD_updateAt_self incWeak b0 st.blocks default hb0,
              incWeak_shared_count]
            exact h0
          · rw [getD_updateAt_ne incWeak b0 b st.blocks default (fun hx => he hx.symm)]
            exact h0
  | wmove i =>
    cases hsl : st.weaks[i]? with
    | none => simpa [step, hsl] using h0
    | some wl =>
      obtain ⟨w, r⟩ := wl
      cases r with
      | true => simpa [step, hsl] using h0
      | false =>
        rw [step_wmove_eq st i w hsl]
        exact h0
  | wrelease i =>
    cases hsl : st.weaks[i]? with
    | none => simpa [step, hsl] using h0
    | some wl =>
      obtain ⟨w, r⟩ := wl
      cases r with
      | true => simpa [step, hsl] using h0
      | false =>
        cases hcb : w.cb with
        | none =>
          rw [step_wrelease_none st i w hsl hcb]
          exact h0
        | some b0 =>
          have hb0 : b0 < st.blocks.length := h.wBound _ (mem_of_getElem? hsl) b0 hcb
          rw [step_wrelease_eq st i w b0 hsl hcb hb0]
          simp only [getBlock] at h0 ⊢
          by_cases he : b0 = b
          · subst he
            rw [getD_updateAt_self releaseWeakCB b0 st.blocks default hb0,
              releaseWeakCB_shared]
            exact h0
          · rw [getD_updateAt_ne releaseWeakCB b0 b st.blocks default
              (fun hx => he hx.symm)]
            exact h0
  | wlock i =>
    cases hsl : st.weaks[i]? with
    | none => simpa [step, hsl] using h0
    | some wl =>
      obtain ⟨w, r⟩ := wl
      cases r with
      | true => simpa [step, hsl] using h0
      | false =>
        cases hex : expired w st with
        | true =>
          rw [step_wlock_expired st i w hsl hex]
          exact h0
        | false =>
          cases hcb : w.cb with
          | none => exact absurd hex (by simp [expired, hcb])
          | some b0 =>
            have hpos : 0 < (getBlock st b0).shared_count := by
              have hx := hex
              simp only [expired, hcb, decide_eq_false_iff_not] at hx
              omega
            by_cases he : b0 = b
            · subst he
              omega
            · rw [step_wlock_live st i w b0 hsl hex hcb]
              simp only [getBlock] at h0 ⊢
              rw [getD_updateAt_ne incShared b0 b st.blocks default (fun hx => he hx.symm)]
              exact h0

/-- Once a block's strong count is zero in a well-formed world, it stays zero
under any further finite event sequence. -/
theorem shared_zero_foldl (ops : List Op) (st : World) (h : WF st) (b : Nat)
    (hb : b < st.blocks.length) (h0 : (getBlock st b).shared_count = 0) :
    (getBlock (ops.foldl step st) b).shared_count = 0 := by
  induction ops generalizing st with
  | nil => exact h0
  | cons op ops ih =>
    exact ih (step st op) (wf_step st op h)
      (lt_of_lt_of_le hb (length_le_step st op))
      (shared_zero_step st h op b hb h0)

end Persistence

section Claims

/-- C1: Two-phase release.  In every reachable world, for every control block:
`deallocate()` has run at most once, and has run exactly once iff both counts
are zero, and only after `destroy()` ran; releasing a strong handle decrements
`strong_count`, fires `destroy()` exactly when the count reaches zero, and
fires `deallocate()` at that moment iff `weak_count` is also zero; releasing a
weak handle fires `deallocate()` exactly when it brings both counts to zero. -/
theorem two_phase_release (ops : List Op) (b : Nat)
    (hb : b < (run ops).blocks.length) :
    ((getBlock (run ops) b).deallocCalls ≤ 1 ∧
      ((getBlock (run ops) b).deallocCalls = 1 ↔
        (getBlock (run ops) b).shared_count = 0 ∧ (getBlock (run ops) b).weak_count = 0) ∧
      ((getBlock (run ops) b).deallocCalls = 1 → (getBlock (run ops) b).destroyCalls = 1)) ∧
    (∀ i s, (run ops).strongs[i]? = some ⟨s, false⟩ → s.cb = some b →
      (getBlock (step (run ops) (.srelease i)) b).shared_count
          = (getBlock (run ops) b).shared_count - 1 ∧
      (getBlock (step (run ops) (.srelease i)) b).destroyCalls
          = (if (getBlock (run ops) b).shared_count - 1 = 0 then 1 else 0) ∧
      (getBlock (step (run ops) (.srelease i)) b).deallocCalls
          = (if (getBlock (run ops) b).shared_count - 1 = 0 ∧
                (getBlock (run ops) b).weak_count = 0 then 1 else 0)) ∧
    (∀ j w, (run ops).weaks[j]? = some ⟨w, false⟩ → w.cb = some b →
      (getBlock (step (run ops) (.wrelease j)) b).deallocCalls
          = (if (getBlock (run ops) b).shared_count = 0 ∧
                (getBlock (run ops) b).weak_count - 1 = 0 then 1 else 0)) := by
  have h := wf_run ops
  have hdl := h.okDealloc b hb
  have hds := h.okDestroy b hb
  refine ⟨⟨?_, ?_, ?_⟩, ?_, ?_⟩
  · rw [hdl]
    split_ifs <;> omega
  · rw [hdl]
    split_ifs with hc
    · simp [hc]
    · simp [hc]
  · rw [hdl, hds]
    intro hx
    split_ifs at hx ⊢ <;> first | rfl | omega
  · intro i s hsl hcb
    have hpos := shared_pos_of_slot (run ops) h i s b hsl hcb
    have hg : getBlock (step (run ops) (.srelease i)) b
        = releaseStrongCB (getBlock (run ops) b) := by
      rw [step_srelease_eq (run ops) i s b hsl hcb hb]
      simp only [getBlock]
      exact getD_updateAt_self releaseStrongCB b (run ops).blocks default hb
    rw [hg, releaseStrongCB_shared, releaseStrongCB_destroyCalls,
      releaseStrongCB_deallocCalls]
    refine ⟨rfl, ?_, ?_⟩
    · rw [hds]
      split_ifs <;> omega
    · rw [hdl]
      split_ifs <;> first | rfl | omega
  · intro j w hwl hcb
    have hposW := weak_pos_of_slot (run ops) h j w b hwl hcb
    have hg : getBlock (step (run ops) (.wrelease j)) b
        = releaseWeakCB (getBlock (run ops) b) := by
      rw [step_wrelease_eq (run ops) j w b hwl hcb hb]
      simp only [getBlock]
      exact getD_updateAt_self releaseWeakCB b (run ops).blocks default hb
    rw [hg, releaseWeakCB_deallocCalls, hdl]
    split_ifs <;> first | rfl | omega

/-- Witness for C1 on the concrete trace adopt, then create a weak handle:
releasing the only strong handle fires `destroy()` but not `deallocate()`
because a weak handle is still alive. -/
theorem two_phase_release_witness :
    0 < (run [.adoptNew (some (.raw 7)), .wfromS 0]).blocks.length ∧
    (getBlock (step (run [.adoptNew (some (.raw 7)), .wfromS 0]) (.srelease 0)) 0).destroyCalls
      = 1 ∧
    (getBlock (step (run [.adoptNew (some (.raw 7)), .wfromS 0]) (.srelease 0)) 0).deallocCalls
      = 0 := by
  have h := two_phase_release [.adoptNew (some (.raw 7)), .wfromS 0] 0 (by decide)
  have h2 := h.2.1 0 ⟨some (.raw 7), some 0⟩ (by decide) rfl
  refine ⟨by decide, ?_, ?_⟩
  · rw [h2.2.1]
    decide
  · rw [h2.2.2]
    decide

/-- C2: Payload destruction runs at most once in every reachable world (never
repeated), has run exactly once iff the block's strong count is zero (never
skipped once the last strong handle is gone), has not run while a strong
handle still shares the block, and the release of the last strong handle is
exactly the moment it fires. -/
theorem payload_destroyed_once (ops : List Op) (b : Nat)
    (hb : b < (run ops).blocks.length) :
    (getBlock (run ops) b).destroyCalls ≤ 1 ∧
    ((getBlock (run ops) b).destroyCalls
        = if (getBlock (run ops) b).shared_count = 0 then 1 else 0) ∧
    (getBlock (run ops) b).shared_count = aliveStrongOn (run ops) b ∧
    (∀ i s, (run ops).strongs[i]? = some ⟨s, false⟩ → s.cb = some b →
      (getBlock (run ops) b).destroyCalls = 0 ∧
      ((getBlock (step (run ops) (.srelease i)) b).destroyCalls = 1 ↔
        (getBlock (run ops) b).shared_count = 1)) := by
  have h := wf_run ops
  have hds := h.okDestroy b hb
  refine ⟨?_, hds, h.okShared b hb, ?_⟩
  · rw [hds]
    split_ifs <;> omega
  · intro i s hsl hcb
    have hpos := shared_pos_of_slot (run ops) h i s b hsl hcb
    have hz : (getBlock (run ops) b).destroyCalls = 0 := by
      rw [hds]
      split_ifs <;> omega
    have hg : getBlock (step (run ops) (.srelease i)) b
        = releaseStrongCB (getBlock (run ops) b) := by
      rw [step_srelease_eq (run ops) i s b hsl hcb hb]
      simp only [getBlock]
      exact getD_updateAt_self releaseStrongCB b (run ops).blocks default hb
    refine ⟨hz, ?_⟩
    rw [hg, releaseStrongCB_destroyCalls, hz]
    split_ifs <;> constructor <;> intro <;> omega

/-- Witness for C2 on a factory-created block: with one strong handle alive the
payload is not destroyed, and releasing that handle destroys it exactly once. -/
theorem payload_destroyed_once_witness :
    0 < (run [.mkShared [4, 5]]).blocks.length ∧
    (getBlock (run [.mkShared [4, 5]]) 0).destroyCalls = 0 ∧
    (getBlock (step (run [.mkShared [4, 5]]) (.srelease 0)) 0).destroyCalls = 1 := by
  have h := payload_destroyed_once [.mkShared [4, 5]] 0 (by decide)
  have h4 := h.2.2.2 0 ⟨some (.inlineAddr 0), some 0⟩ (by decide) rfl
  exact ⟨by decide, h4.1, h4.2.mpr (by decide)⟩

/-- C3: `lock()` returns an empty strong handle (use count zero, null payload
pointer, no block) iff `expired()` is true at the moment of the call;
otherwise it returns a handle sharing the weak handle's block whose
`use_count()` is one greater than the block's strong count before the call. -/
theorem lock_spec (w : WeakPtr) (st : World) :
    ((useCount (lock w st).1 (lock w st).2 = 0 ∧ (lock w st).1.ptr = none ∧
        (lock w st).1.cb = none) ↔ expired w st = true) ∧
    (expired w st = false →
      (lock w st).1.cb = w.cb ∧ (lock w st).1.ptr = w.ptr ∧
      ∀ b, w.cb = some b →
        useCount (lock w st).1 (lock w st).2 = (getBlock st b).shared_count + 1) := by
  cases hex : expired w st with
  | true =>
    constructor
    · simp [lock, hex, useCount]
    · intro hc
      cases hc
  | false =>
    cases hcb : w.cb with
    | none => exact absurd hex (by simp [expired, hcb])
    | some b =>
      have hb : b < st.blocks.length := by
        by_contra hq
        have hd : st.blocks.getD b default = default :=
          getD_of_length_le _ _ _ (Nat.le_of_not_lt hq)
        have hext : expired w st = true := by
          simp only [expired, hcb]
          rw [show getBlock st b = default from hd]
          rfl
        rw [hext] at hex
        cases hex
      have hlk : lock w st = (⟨w.ptr, some b⟩, updBlock st b incShared) := by
        simp [lock, hex, sharedFromWeak, hcb]
      have hu : useCount (⟨w.ptr, some b⟩ : SharedPtr) (updBlock st b incShared)
          = (getBlock st b).shared_count + 1 := by
        simp only [useCount, getBlock_updBlock_self st b incShared hb, incShared_shared_count]
      rw [hlk]
      constructor
      · constructor
        · intro hx
          exact absurd hx.2.2 (by simp)
        · intro hx
          cases hx
      · intro _
        refine ⟨rfl, rfl, ?_⟩
        intro b' hcb'
        obtain rfl : b = b' := Option.some.inj hcb'
        exact hu

/-- Witness for C3: locking a live weak handle yields use count 2; after the
strong handle is released the same weak handle is expired and locking yields
the empty handle. -/
theorem lock_spec_witness :
    (expired ⟨some (.raw 5), some 0⟩ (run [.adoptNew (some (.raw 5)), .wfromS 0]) = false ∧
      useCount
        (lock ⟨some (.raw 5), some 0⟩ (run [.adoptNew (some (.raw 5)), .wfromS 0])).1
        (lock ⟨some (.raw 5), some 0⟩ (run [.adoptNew (some (.raw 5)), .wfromS 0])).2 = 2) ∧
    (expired ⟨some (.raw 5), some 0⟩
        (run [.adoptNew (some (.raw 5)), .wfromS 0, .srelease 0]) = true ∧
      (lock ⟨some (.raw 5), some 0⟩
        (run [.adoptNew (some (.raw 5)), .wfromS 0, .srelease 0])).1.cb = none) := by
  have h1 := (lock_spec ⟨some (.raw 5), some 0⟩
    (run [.adoptNew (some (.raw 5)), .wfromS 0])).2 (by decide)
  have h2 := (lock_spec ⟨some (.raw 5), some 0⟩
    (run [.adoptNew (some (.raw 5)), .wfromS 0, .srelease 0])).1.mpr (by decide)
  refine ⟨⟨by decide, ?_⟩, ⟨by decide, h2.2.2⟩⟩
  rw [h1.2.2 0 rfl]
  decide

/-- C4: In every reachable world, `use_count()` on any still-alive strong
handle equals the number of still-alive strong handles sharing its block; copy
increments both the block count and the number of alive sharers by one, move
changes neither, and release decrements both by one. -/
theorem use_count_net (ops : List Op) :
    (∀ (i : Nat) (s : SharedPtr) (b : Nat),
      (run ops).strongs[i]? = some ⟨s, false⟩ → s.cb = some b →
      useCount s (run ops) = aliveStrongOn (run ops) b) ∧
    (∀ (i : Nat) (s : SharedPtr) (b : Nat),
      (run ops).strongs[i]? = some ⟨s, false⟩ → s.cb = some b →
      ((getBlock (step (run ops) (.scopy i)) b).shared_count
          = (getBlock (run ops) b).shared_count + 1 ∧
        aliveStrongOn (step (run ops) (.scopy i)) b = aliveStrongOn (run ops) b + 1) ∧
      ((getBlock (step (run ops) (.smove i)) b).shared_count
          = (getBlock (run ops) b).shared_count ∧
        aliveStrongOn (step (run ops) (.smove i)) b = aliveStrongOn (run ops) b) ∧
      ((getBlock (step (run ops) (.srelease i)) b).shared_count
          = (getBlock (run ops) b).shared_count - 1 ∧
        aliveStrongOn (step (run ops) (.srelease i)) b
          = aliveStrongOn (run ops) b - 1)) := by
  have h := wf_run ops
  have hmain : ∀ (i : Nat) (s : SharedPtr) (b : Nat),
      (run ops).strongs[i]? = some ⟨s, false⟩ → s.cb = some b →
      useCount s (run ops) = aliveStrongOn (run ops) b := by
    intro i s b hsl hcb
    have hb : b < (run ops).blocks.length := h.sBound _ (mem_of_getElem? hsl) b hcb
    have hc := h.okShared b hb
    simp only [useCount, hcb]
    exact hc
  refine ⟨hmain, ?_⟩
  intro i s b hsl hcb
  have hb : b < (run ops).blocks.length := h.sBound _ (mem_of_getElem? hsl) b hcb
  have hc := h.okShared b hb
  have hcopy : (getBlock (step (run ops) (.scopy i)) b).shared_count
      = (getBlock (run ops) b).shared_count + 1 := by
    rw [step_scopy_eq (run ops) i s b hsl hcb]
    simp only [getBlock]
    rw [getD_updateAt_self incShared b (run ops).blocks default hb]
    rfl
  have hmv : (getBlock (step (run ops) (.smove i)) b).shared_count
      = (getBlock (run ops) b).shared_count := by
    rw [step_smove_eq (run ops) i s hsl]
    simp only [getBlock]
  have hrel : (getBlock (step (run ops) (.srelease i)) b).shared_count
      = (getBlock (run ops) b).shared_count - 1 := by
    rw [step_srelease_eq (run ops) i s b hsl hcb hb]
    simp only [getBlock]
    rw [getD_updateAt_self releaseStrongCB b (run ops).blocks default hb]
    exact releaseStrongCB_shared _
  have hafter : ∀ op : Op, aliveStrongOn (step (run ops) op) b
      = (getBlock (step (run ops) op) b).shared_count := by
    intro op
    exact ((wf_step (run ops) op h).okShared b
      (lt_of_lt_of_le hb (length_le_step (run ops) op))).symm
  refine ⟨⟨hcopy, ?_⟩, ⟨hmv, ?_⟩, hrel, ?_⟩
  · rw [hafter (.scopy i), hcopy, hc]
  · rw [hafter (.smove i), hmv, hc]
  · rw [hafter (.srelease i), hrel, hc]

/-- Witness for C4: after one adoption the only handle reports use count 1
equal to the single alive sharer, and copying bumps the block count to 2. -/
theorem use_count_net_witness :
    useCount ⟨some (.raw 3), some 0⟩ (run [.adoptNew (some (.raw 3))])
      = aliveStrongOn (run [.adoptNew (some (.raw 3))]) 0 ∧
    (getBlock (step (run [.adoptNew (some (.raw 3))]) (.scopy 0)) 0).shared_count = 2 := by
  have h := use_count_net [.adoptNew (some (.raw 3))]
  refine ⟨h.1 0 ⟨some (.raw 3), some 0⟩ 0 (by decide) rfl, ?_⟩
  rw [(h.2 0 ⟨some (.raw 3), some 0⟩ 0 (by decide) rfl).1.1]
  decide

/-- C5: The factory allocates exactly one co-allocated block, constructs the
payload in the block's inline storage from the forwarded arguments, sets
`strong_count = 1` with no weak observers, stores the rebound allocator, and
returns a strong handle whose payload pointer is the address of the in-block
storage; `makeShared` is `allocateShared` with the default allocator. -/
theorem allocateShared_factory (a : Nat) (args : List Nat) (st : World) :
    (allocateShared a false args st).2.blocks.length = st.blocks.length + 1 ∧
    (allocateShared a false args st).1
      = .ok ⟨some (.inlineAddr st.blocks.length), some st.blocks.length⟩ ∧
    getBlock (allocateShared a false args st).2 st.blocks.length
      = ⟨1, 0, .makeShared args, 0, a, 0, 0⟩ ∧
    makeShared false args st = allocateShared 0 false args st := by
  rw [allocateShared_ok]
  refine ⟨by simp, rfl, ?_, rfl⟩
  simp only [getBlock]
  exact getD_append_length _ _ _

/-- C6: On the factory path with a throwing payload constructor the failure
propagates and no handle is produced, but the already-allocated block storage
is never freed: `allocate` (src 332) and `construct` (src 333-334) have no
try/catch between them, so `deallocate()` is never invoked on the raw block
and the allocation leaks, contradicting the spec's claim that the block's
storage is freed. -/
theorem allocateShared_ctor_throw_leak :
    (allocateShared 0 true [] ({} : World)).1 = .error () ∧
    (allocateShared 0 true [] ({} : World)).2.blocks.length = 1 ∧
    (getBlock (allocateShared 0 true [] ({} : World)).2 0).deallocCalls = 0 ∧
    (getBlock (allocateShared 0 true [] ({} : World)).2 0).kind = .rawStorage := by
  refine ⟨rfl, rfl, rfl, rfl⟩

/-- C7: `expired()` is true iff the weak handle references no block or the
block's strong count is zero; and once true in a reachable world it remains
true under every further event sequence (in particular while other weak
handles to the block still exist). -/
theorem expired_spec (ops more : List Op) (w : WeakPtr) :
    (expired w (run ops) = true ↔
      (w.cb = none ∨ ∃ b, w.cb = some b ∧ (getBlock (run ops) b).shared_count = 0)) ∧
    ((∀ b, w.cb = some b → b < (run ops).blocks.length) →
      expired w (run ops) = true →
      expired w (List.foldl step (run ops) more) = true) := by
  constructor
  · cases hcb : w.cb with
    | none => simp [expired, hcb]
    | some b =>
      simp only [expired, hcb, decide_eq_true_eq]
      constructor
      · intro hz
        exact Or.inr ⟨b, rfl, hz⟩
      · intro hz
        rcases hz with hz | ⟨b', hb', hz⟩
        · cases hz
        · obtain rfl : b = b' := Option.some.inj hb'
          exact hz
  · intro hbound hex
    cases hcb : w.cb with
    | none => simp [expired, hcb]
    | some b =>
      have hb : b < (run ops).blocks.length := hbound b hcb
      have h0 : (getBlock (run ops) b).shared_count = 0 := by
        simpa [expired, hcb] using hex
      have := shared_zero_foldl more (run ops) (wf_run ops) b hb h0
      simp [expired, hcb, this]

/-- Witness for C7: after adopting and releasing the only strong handle the
weak handle is expired, and stays expired after further events (another weak
copy being created). -/
theorem expired_spec_witness :
    expired ⟨some (.raw 2), some 0⟩
      (run [.adoptNew (some (.raw 2)), .wfromS 0, .srelease 0]) = true ∧
    expired ⟨some (.raw 2), some 0⟩
      (List.foldl step (run [.adoptNew (some (.raw 2)), .wfromS 0, .srelease 0])
        [.wcopy 0, .wlock 0]) = true := by
  have h := expired_spec [.adoptNew (some (.raw 2)), .wfromS 0, .srelease 0]
    [.wcopy 0, .wlock 0] ⟨some (.raw 2), some 0⟩
  refine ⟨by decide, ?_⟩
  refine h.2 ?_ (by decide)
  intro b hb
  obtain rfl : (0 : Nat) = b := by simpa using hb
  decide

/-- C8 (code_bug): Self-observation round-trip.  The feature is ill-formed in
the source: `EnableSharedFromThis` befriends the misspelled `SharePtr`
(src 318), leaving the private `enable_wp` inaccessible to the adoption branch
(src 153), and `shared_from_this` (src 314) calls `SharedPtr`'s private
promotion constructor (src 88) without friendship - so no well-formed program
can instantiate the round-trip the claim describes, and the claim is not true
of the code as written.  This theorem evaluates the semantics the source text
evidently intends (the friendship slip repaired): adopting a raw pointer to a
self-observing object and calling `shared_from_this()` yields a second strong
handle with the same payload pointer and the same control block, and the
original handle's `use_count()` is 2 immediately after - exactly the claimed
round-trip, supporting that the claim is the intent and the friend-declaration
typo a slip. -/
theorem shared_from_this_roundtrip (p : Addr) (st : World) :
    ((sharedFromThis (adoptESFT p st).1.2 (adoptESFT p st).2).1).get
        = ((adoptESFT p st).1.1).get ∧
    ((sharedFromThis (adoptESFT p st).1.2 (adoptESFT p st).2).1).cb
        = ((adoptESFT p st).1.1).cb ∧
    useCount (adoptESFT p st).1.1
        (sharedFromThis (adoptESFT p st).1.2 (adoptESFT p st).2).2 = 2 := by
  have hget1 : getBlock (adopt (some p) st).2 st.blocks.length
      = ⟨1, 0, .regular (some p), 0, 0, 0, 0⟩ := by
    simp only [adopt, getBlock]
    exact getD_append_length _ _ _
  have hb1 : st.blocks.length < (adopt (some p) st).2.blocks.length := by
    simp [adopt]
  have hpos : 0 < (getBlock (adopt (some p) st).2 st.blocks.length).shared_count := by
    rw [hget1]
    exact Nat.one_pos
  have hspec := weakFromShared_spec (adopt (some p) st).1 (adopt (some p) st).2
    st.blocks.length rfl hb1 hpos
  have hfst : (adopt (some p) st).1 = ⟨some p, some st.blocks.length⟩ := rfl
  rw [hfst] at hspec
  have hESFT : adoptESFT p st
      = ((⟨some p, some st.blocks.length⟩, ⟨some p, some st.blocks.length⟩),
         updBlock (adopt (some p) st).2 st.blocks.length incWeak) := by
    simp [adoptESFT, hspec, hfst]
  rw [hESFT]
  have hb2 : st.blocks.length
      < (updBlock (adopt (some p) st).2 st.blocks.length incWeak).blocks.length := by
    simpa [updBlock, length_updateAt] using hb1
  refine ⟨rfl, rfl, ?_⟩
  simp only [sharedFromThis, sharedFromWeak, useCount]
  rw [getBlock_updBlock_self _ st.blocks.length incShared hb2,
    getBlock_updBlock_self _ st.blocks.length incWeak hb1, hget1]
  rfl

/-- C9 (code_bug on its self-observation clause): Raw-pointer adoption with
the default policy allocates one fresh separate-allocation
(`RegularControlBlock`) block initialized with strong count 1, weak count 0,
the default deleter (tag 0, `std::default_delete`) and the default allocator
(tag 0, `std::allocator`) - proved here against the code (src 145-150).  The
claim's further clause, that adopting a self-observing payload also populates
the object's embedded weak handle, describes no behavior of the program: the
branch at src 152-154 is ill-formed (`enable_wp` is private and the friend
declaration at src 318 names the nonexistent `SharePtr`), so no type deriving
`EnableSharedFromThis` can be adopted at all. -/
theorem adopt_spec (p : Option Addr) (st : World) :
    (adopt p st).2.blocks.length = st.blocks.length + 1 ∧
    (adopt p st).1 = ⟨p, some st.blocks.length⟩ ∧
    getBlock (adopt p st).2 st.blocks.length = ⟨1, 0, .regular p, 0, 0, 0, 0⟩ := by
  refine ⟨by simp [adopt], rfl, ?_⟩
  simp only [adopt, getBlock]
  exact getD_append_length _ _ _

/-- C10: Adopting a null raw pointer is distinguishable from an empty strong
handle: the adopting constructor still allocates a control block with strong
count 1, so the resulting handle has `use_count() = 1` with `get() = null`,
while a default-constructed handle has `use_count() = 0` and `get() = null`. -/
theorem adopt_null_distinguishable (st : World) :
    useCount (adopt none st).1 (adopt none st).2 = 1 ∧
    ((adopt none st).1).get = none ∧
    useCount sharedPtrDefault st = 0 ∧
    sharedPtrDefault.get = none := by
  refine ⟨?_, rfl, rfl, rfl⟩
  simp only [useCount, adopt, getBlock]
  rw [getD_append_length]

end Claims

end SmartPtr
